import Mathlib

/-!
Shallow embedding of the weighted-graph library (`src/fm/d1/graphs/library.py`)
and its two algorithms, Kruskal and Dijkstra, together with proofs settling the
frozen claims about them.

Modelling conventions:
* Python vertices compare by name (`Vertex.__eq__`), so a vertex is embedded as
  a structure holding its name, with decidable equality by name.  A graph never
  holds two vertices of equal name (`add_vertex` rejects duplicates), so inside
  a graph Python object identity (`is`) coincides with name equality; the
  identity tests in `dijkstra` are therefore modelled as name equality, and the
  theorems about `dijkstra` assume the start/end vertices are members.
* Edge weights (`int | float` in the source) are embedded as `ℤ` (every
  weight in the claims is an integer, and no claim depends on fractional
  weights; on integral values Python's `round(x, 5)` is the identity).  The
  infinite working distances of Dijkstra (`math.inf`) are embedded as `none`
  in `Dist := Option ℤ`.
* Python raises exceptions; fallible operations return `Except`.  Out-of-range
  list indexing, which Python turns into `IndexError`, is embedded with `getD`
  defaults; every call site exercised by a theorem is in bounds (the theorems
  carry the documented well-formedness hypotheses: a square matrix and
  duplicate-free vertices), so the defaults are never observable there.
* The recursive searches `_is_connected` / `_has_cycles` and the two `while`
  loops of `dijkstra` have no structural termination measure in the source
  (`_is_connected` and Dijkstra's second loop genuinely diverge on some
  inputs), so they are embedded with an explicit fuel parameter.  `_has_cycles`
  always terminates within depth `2n+2` (a vertex can recur only immediately
  after itself, any later recurrence returns `True`), so fuel `2n+4` makes
  `hasCycles` exact.  `_is_connected` terminates within depth `(n+1)²` whenever
  it terminates at all, so fuel `(n+1)² + 2` makes `isConnected` return the
  source's answer on every terminating input and `false` where the source
  recurses forever.  Dijkstra's loops get fuel `n+1`; phase 1 always finishes
  within `n` rounds, and phase 2 either appends a vertex each round (at most
  `n-1` rounds) or repeats its state forever, which the embedding reports as
  `DStatus.fuelOut` (distinct from a raised exception, `DStatus.raised`).
-/

/-- Decidable equality of `Except` results, for evaluating claims about
fallible operations on concrete inputs. -/
instance {ε α : Type} [DecidableEq ε] [DecidableEq α] :
    DecidableEq (Except ε α) := fun x y =>
  match x, y with
  | .ok a, .ok b => decidable_of_iff (a = b) (by simp)
  | .error a, .error b => decidable_of_iff (a = b) (by simp)
  | .ok _, .error _ => isFalse (by simp)
  | .error _, .ok _ => isFalse (by simp)

namespace GraphLib

/-- `Vertex` from the source: a name, equal by name. -/
structure Vertex where
  name : String
deriving DecidableEq, Repr

instance : Inhabited Vertex := ⟨⟨""⟩⟩

/-- First index of `v` in a list, by name equality; `l.length` when absent
(the source's `list.index`, which raises there — never reached under the
membership hypotheses carried by the theorems). -/
def idxOf (v : Vertex) : List Vertex → ℕ
  | [] => 0
  | u :: rest => if u = v then 0 else idxOf v rest + 1

/-- The adjacency matrix: weight `0` means "no edge". -/
abbrev Matrix := List (List ℤ)

/-- `matrix[i][j]` with `0` beyond the bounds. -/
def cellAt (M : Matrix) (i j : ℕ) : ℤ := (M.getD i []).getD j 0

/-- `matrix[i][j] = w` (no-op beyond the bounds, where the source raises;
unreachable under the theorems' hypotheses). -/
def updCell (M : Matrix) (i j : ℕ) (w : ℤ) : Matrix :=
  M.set i ((M.getD i []).set j w)

/-- `Graph` from the source: an ordered vertex list and a distance matrix. -/
structure Graph where
  vertices : List Vertex
  matrix : Matrix
deriving DecidableEq, Repr

/-- `Graph.__init__`: no vertices, matrix `[[]]`. -/
def emptyGraph : Graph := ⟨[], [[]]⟩

/-- The exception classes of the source. -/
inductive GraphError where
  | vertexAlreadyAdded
  | vertexDoesntExist
  | edgeDoesntExist
deriving DecidableEq, Repr

/-- `Graph.add_vertex`. -/
def addVertex (G : Graph) (v : Vertex) : Except GraphError Graph :=
  if v ∈ G.vertices then
    .error .vertexAlreadyAdded
  else
    .ok ⟨G.vertices ++ [v],
      if G.matrix = [[]] then [[0]]
      else
        let grown := G.matrix.map (fun row => row ++ [0])
        grown ++ [List.replicate (grown.headD []).length 0]⟩

/-- `Graph.add_vertices`: one `add_vertex` per argument, stopping at the first
failure (vertices added before the failure are retained by the caller's graph;
in this embedding a failure simply propagates). -/
def addVertices (G : Graph) : List Vertex → Except GraphError Graph
  | [] => .ok G
  | v :: rest => do addVertices (← addVertex G v) rest

/-- `Graph._set_edge`: both endpoints checked (v first, then u) before any
cell is written, then `matrix[vi][ui] = w` and, when undirected,
`matrix[ui][vi] = w`. -/
def setEdge (G : Graph) (v u : Vertex) (w : ℤ) (directed : Bool) :
    Except GraphError Graph :=
  if v ∉ G.vertices then .error .vertexDoesntExist
  else if u ∉ G.vertices then .error .vertexDoesntExist
  else
    let vi := idxOf v G.vertices
    let ui := idxOf u G.vertices
    let M1 := updCell G.matrix vi ui w
    .ok ⟨G.vertices, if directed then M1 else updCell M1 ui vi w⟩

/-- `Graph.add_edge`. -/
def addEdge (G : Graph) (v u : Vertex) (w : ℤ) (directed : Bool) :
    Except GraphError Graph :=
  setEdge G v u w directed

/-- `Graph.remove_edge`: `_set_edge` with weight `0`. -/
def removeEdge (G : Graph) (v u : Vertex) (directed : Bool) :
    Except GraphError Graph :=
  setEdge G v u 0 directed

/-- `Graph.get_connected_vertices(vertex, avoid)`: the vertices `w` at
positions `i` with `matrix[vi][i] ≠ 0`, kept despite `avoid` when
`matrix[i][vi] ≠ matrix[vi][i]`. -/
def getConnectedVertices (G : Graph) (vertex : Vertex) (avoid : List Vertex) :
    List Vertex :=
  let vi := idxOf vertex G.vertices
  (G.matrix.getD vi []).enum.filterMap fun p =>
    if p.2 ≠ 0 ∧ (G.vertices.getD p.1 default ∉ avoid ∨
        cellAt G.matrix p.1 vi ≠ cellAt G.matrix vi p.1) then
      some (G.vertices.getD p.1 default)
    else none

/-- `Graph.weight_of_path`: membership of every vertex checked first, then the
consecutive edge weights summed, failing on a zero weight. -/
def weightOfPathAux (G : Graph) : List Vertex → Except GraphError ℤ
  | a :: b :: rest =>
    let e := cellAt G.matrix (idxOf a G.vertices) (idxOf b G.vertices)
    if e = 0 then .error .edgeDoesntExist
    else do
      let r ← weightOfPathAux G (b :: rest)
      .ok (e + r)
  | _ => .ok 0

/-- `Graph.weight_of_path`. -/
def weightOfPath (G : Graph) (path : List Vertex) : Except GraphError ℤ :=
  if path.all (fun v => decide (v ∈ G.vertices)) then weightOfPathAux G path
  else .error .vertexDoesntExist

/-- Python's `set(a) == set(b)` on vertex lists. -/
def setEqB (a b : List Vertex) : Bool :=
  a.all (fun v => decide (v ∈ b)) && b.all (fun v => decide (v ∈ a))

/-- `Graph._is_connected(vertex, visited)`, fuelled.  The source returns `True`
once `set(visited + [vertex]) == set(self.vertices)` and otherwise recurses
into every connected vertex, OR-ing the answers with no short-circuit. -/
def isConnectedAux (G : Graph) : ℕ → Vertex → List Vertex → Bool
  | 0, _, _ => false
  | fuel + 1, vertex, visited =>
    if setEqB (visited ++ [vertex]) G.vertices then true
    else
      (getConnectedVertices G vertex visited).foldl
        (fun acc v => acc || isConnectedAux G fuel v (visited ++ [vertex]))
        false

/-- `Graph.is_connected`: tries every vertex as a start. -/
def isConnected (G : Graph) : Bool :=
  G.vertices.any fun v =>
    isConnectedAux G ((G.vertices.length + 1) * (G.vertices.length + 1) + 2)
      v []

/-- `Graph._has_cycles(vertex, visited)`, fuelled: a return to any vertex in
`visited[:-1]` is a cycle; the avoid list is only the last visited vertex. -/
def hasCyclesAux (G : Graph) : ℕ → Vertex → List Vertex → Bool
  | 0, _, _ => false
  | fuel + 1, vertex, visited =>
    if vertex ∈ visited.dropLast then true
    else
      (getConnectedVertices G vertex
          (match visited.getLast? with
            | some p => [p]
            | none => [])).foldl
        (fun acc v => acc || hasCyclesAux G fuel v (visited ++ [vertex]))
        false

/-- `Graph.has_cycles`: no vertices means no cycles; any self-loop is a cycle;
otherwise a depth-first search from every vertex. -/
def hasCycles (G : Graph) : Bool :=
  if G.vertices.length = 0 then false
  else if (List.range G.vertices.length).any
      (fun i => decide (cellAt G.matrix i i ≠ 0)) then true
  else
    G.vertices.any fun v =>
      hasCyclesAux G (2 * G.vertices.length + 4) v []

/-- `Graph.is_tree`. -/
def isTree (G : Graph) : Bool := !hasCycles G

/-- `Graph.number_of_odd_nodes`: rows with an odd count of nonzero entries. -/
def numberOfOddNodes (G : Graph) : ℕ :=
  (G.matrix.map fun row => (row.filter fun e => decide (e ≠ 0)).length % 2).sum

/-- `Graph.is_eulerian`. -/
def isEulerian (G : Graph) : Bool := numberOfOddNodes G = 0

/-- `Graph.is_semi_eulerian`. -/
def isSemiEulerian (G : Graph) : Bool := numberOfOddNodes G = 2

/-- `Graph.total_weight`: the sum of every matrix cell. -/
def totalWeight (G : Graph) : ℤ := (G.matrix.map List.sum).sum

/-! ### Kruskal (`kruskal` in the source) -/

/-- An entry of Kruskal's `directed_edges` list: `(v, u, weight, directed)`. -/
structure DEdge where
  v : Vertex
  u : Vertex
  w : ℤ
  dir : Bool
deriving DecidableEq, Repr

/-- Insert into an ascending list, before the first element not strictly
below `x` (so an element inserted later never jumps ahead of an equal one). -/
def insertAsc {α : Type} (lt : α → α → Bool) (x : α) : List α → List α
  | [] => [x]
  | y :: ys => if lt y x then y :: insertAsc lt x ys else x :: y :: ys

/-- A stable ascending sort.  Python's `list.sort` is a stable ascending sort
by the key, and any two stable ascending sorts agree on every input, so this
structurally recursive insertion sort computes exactly the source's order. -/
def stableSortBy {α : Type} (lt : α → α → Bool) : List α → List α
  | [] => []
  | x :: xs => insertAsc lt x (stableSortBy lt xs)

/-- Row-major enumeration of the nonzero matrix cells as
`(vertices[i], vertices[j], weight)` triples. -/
def edgeList (G : Graph) : List (Vertex × Vertex × ℤ) :=
  G.matrix.enum.flatMap fun p =>
    p.2.enum.filterMap fun q =>
      if q.2 ≠ 0 then
        some (G.vertices.getD p.1 default, G.vertices.getD q.1 default, q.2)
      else none

/-- Kruskal's coalescing loop: an edge whose exact reverse (same weight) is
already present as a directed entry turns that entry undirected; otherwise it
is appended as a directed entry. -/
def coalesce : List (Vertex × Vertex × ℤ) → List DEdge → List DEdge
  | [], acc => acc
  | (v, u, w) :: rest, acc =>
    if (⟨u, v, w, true⟩ : DEdge) ∈ acc then
      coalesce rest
        (acc.map fun t => if t = ⟨u, v, w, true⟩ then ⟨u, v, w, false⟩ else t)
    else
      coalesce rest (acc ++ [⟨v, u, w, true⟩])

/-- Kruskal's greedy loop: add each entry, undo it if the tree then has a
cycle, and stop as soon as the tree is connected. -/
def buildTree : Graph → List DEdge → Except GraphError Graph
  | t, [] => .ok t
  | t, e :: rest => do
    let t1 ← addEdge t e.v e.u e.w e.dir
    let t2 ← if hasCycles t1 then removeEdge t1 e.v e.u e.dir else pure t1
    if isConnected t2 then .ok t2 else buildTree t2 rest

/-- `kruskal(graph)`: enumerate, stable-sort by weight, coalesce, then build
the tree over a fresh graph holding the same vertices. -/
def kruskal (G : Graph) : Except GraphError Graph := do
  let sorted := stableSortBy (fun a b => decide (a.2.2 < b.2.2)) (edgeList G)
  let dedges := coalesce sorted []
  let t0 ← addVertices emptyGraph G.vertices
  buildTree t0 dedges

/-! ### Dijkstra (`DijkstraVertex` and `dijkstra` in the source) -/

/-- Python's `round(x, 5)`.  On the integral values this embedding works
with it is the identity (rounding to five decimal places moves nothing). -/
def pyRound5 (q : ℤ) : ℤ := q

/-- A distance that may be `math.inf`: `none` is infinity, `some q` is the
finite rational `q`. -/
abbrev Dist := Option ℤ

/-- `d + w` for a possibly infinite `d` (`inf + w = inf`). -/
def Dist.add (d : Dist) (w : ℤ) : Dist := d.map fun q => q + w

/-- `d - w` for a possibly infinite `d` (`inf - w = inf`). -/
def Dist.sub (d : Dist) (w : ℤ) : Dist := d.map fun q => q - w

/-- `x < y` on possibly infinite values, as Python compares floats:
anything finite is below `inf`, and `inf < inf` is false. -/
def Dist.lt (x y : Dist) : Bool :=
  match x, y with
  | none, _ => false
  | some _, none => true
  | some a, some b => decide (a < b)

/-- `round(d, 5)` on a possibly infinite value (`round(inf, 5) = inf`). -/
def Dist.round5 (d : Dist) : Dist := d.map pyRound5

/-- `DijkstraVertex`: vertex, order, working distance, final distance
(the outer `none` in `fd` is Python's `None`, an inner `none` is
`math.inf`). -/
structure DV where
  vertex : Vertex
  order : ℕ
  wd : Dist
  fd : Option Dist
deriving DecidableEq, Repr

/-- `DijkstraVertex.visited`: the final distance has been set. -/
def DV.visited (dv : DV) : Bool := dv.fd.isSome

/-- Outcome of a fuelled loop: a genuine value, a raised exception, or fuel
exhaustion (the loop was still running after `fuel` rounds). -/
inductive DStatus where
  | raised
  | fuelOut
deriving DecidableEq, Repr

/-- One step of Python's `max`/`min` scan: replace the best-so-far only when
the new element is strictly better. -/
def pickStep {α : Type} (better : α → α → Bool) (best : Option α) (x : α) :
    Option α :=
  match best with
  | none => some x
  | some b => if better x b then some x else best

/-- Python's `max`/`min` with a key: the first element strictly better than
everything before it wins (`better x b` = "`x` strictly better than `b`"). -/
def foldPick {α : Type} (better : α → α → Bool) (l : List α) : Option α :=
  l.foldl (pickStep better) none

/-- Outcome of one round of phase 1: the loop condition failed (`done`), an
exception was raised, or the loop body produced the next state. -/
inductive P1Step where
  | done (dvs : List DV)
  | raise
  | next (dvs : List DV)
deriving DecidableEq, Repr

/-- The relaxation of one entry against the current entry `cdv` (finalised at
`cfd`): an unvisited connected vertex's working distance drops to
`cfd + edge weight` when that is smaller. -/
def relaxOne (G : Graph) (cdv : DV) (cfd : Dist) (conn : List Vertex)
    (dv : DV) : DV :=
  if decide (dv.vertex ∈ conn) && !dv.visited then
    if (cfd.add (cellAt G.matrix (idxOf cdv.vertex G.vertices)
        (idxOf dv.vertex G.vertices))).lt dv.wd then
      { dv with wd := cfd.add (cellAt G.matrix (idxOf cdv.vertex G.vertices)
          (idxOf dv.vertex G.vertices)) }
    else dv
  else dv

/-- The relaxation pass of one phase-1 round: the connected vertices of the
current entry are computed avoiding the visited ones, and every unvisited
connected entry is relaxed. -/
def relaxAll (G : Graph) (cdv : DV) (cfd : Dist) (dvs : List DV) :
    List DV :=
  dvs.map (relaxOne G cdv cfd (getConnectedVertices G cdv.vertex
    ((dvs.filter fun dv => dv.visited).map fun dv => dv.vertex)))

/-- One round of phase 1 of `dijkstra`: while some entry is unvisited, take
the highest-order entry as `current`, relax its unvisited connected vertices,
and finalise the unvisited entry (other than `current`) of least working
distance. -/
def phase1Step (G : Graph) (dvs : List DV) : P1Step :=
  if 0 < (dvs.filter fun dv => !dv.visited).length then
    match foldPick (fun x b => b.2.order < x.2.order) dvs.enum with
    | none => .raise
    | some (ci, cdv) =>
      match cdv.fd with
      | none => .raise
      | some cfd =>
        match foldPick (fun x b => x.2.wd.lt b.2.wd)
            ((relaxAll G cdv cfd dvs).enum.filter fun q =>
              decide (q.1 ≠ ci) && !q.2.visited) with
        | none => .raise
        | some (ni, ndv) =>
          .next ((relaxAll G cdv cfd dvs).set ni
            ⟨ndv.vertex, cdv.order + 1, ndv.wd, some ndv.wd⟩)
  else .done dvs

/-- Phase 1 of `dijkstra`: iterate `phase1Step` until the loop condition
fails. -/
def phase1Go (G : Graph) : ℕ → List DV → Except DStatus (List DV)
  | fuel, dvs =>
    match phase1Step G dvs with
    | .done d => .ok d
    | .raise => .error .raised
    | .next d =>
      match fuel with
      | 0 => .error .fuelOut
      | fuel + 1 => phase1Go G fuel d

/-- Result of one scan of phase 2's `for dv in open_dvs` loop. -/
inductive PickR where
  | step (dv : DV)
  | raise
  | noStep
deriving DecidableEq, Repr

/-- The scan of `open_dvs`: the first back-connected entry whose final
distance matches `working - weight` (both rounded) is stepped to; a
back-connected entry with an unset final distance raises. -/
def pickGo (G : Graph) (wv : Vertex) (wfd : Dist) (backc : List Vertex) :
    List DV → PickR
  | [] => .noStep
  | dv :: rest =>
    if dv.vertex ∈ backc then
      match dv.fd with
      | none => .raise
      | some dfd =>
        let wt := cellAt G.matrix (idxOf dv.vertex G.vertices)
          (idxOf wv G.vertices)
        if (wfd.sub wt).round5 = dfd.round5 then
          .step dv
        else pickGo G wv wfd backc rest
    else pickGo G wv wfd backc rest

/-- One round of phase 2: recompute `open_dvs` and `back_connected`, then
scan. -/
def phase2Pick (G : Graph) (dvs : List DV) (wv : Vertex) (wfd : Dist)
    (path : List Vertex) : PickR :=
  let opens := dvs.filter fun dv => decide (dv.vertex ∉ path)
  let backc := opens.filterMap fun dv =>
    if wv ∈ getConnectedVertices G dv.vertex [] then some dv.vertex else none
  pickGo G wv wfd backc opens

/-- Phase 2 of `dijkstra`: backward reconstruction.  A round that steps
nowhere leaves the state unchanged, which in the source is an infinite loop;
here the fuel runs out (`DStatus.fuelOut`). -/
def phase2Go (G : Graph) (start : Vertex) (dvs : List DV) :
    ℕ → DV → List Vertex → Except DStatus (List Vertex)
  | fuel, wdv, path =>
    if wdv.vertex = start then .ok path.reverse
    else
      match wdv.fd with
      | none => .error .raised
      | some wfd =>
        match fuel with
        | 0 => .error .fuelOut
        | fuel + 1 =>
          match phase2Pick G dvs wdv.vertex wfd path with
          | .raise => .error .raised
          | .step dv => phase2Go G start dvs fuel dv (path ++ [dv.vertex])
          | .noStep => phase2Go G start dvs fuel wdv path

/-- What `dijkstra` builds before phase 1: the start entry finalised at
distance 0 with order 1, then one fresh entry per other vertex. -/
def initDvs (G : Graph) (s : Vertex) : List DV :=
  ⟨s, 1, some 0, some (some 0)⟩ ::
    ((G.vertices.filter fun v => decide (v ≠ s)).map fun v =>
      ⟨v, 0, none, none⟩)

/-- `dijkstra(graph, start, end)` with an explicit fuel bound on both loops. -/
def dijkstraWithFuel (G : Graph) (s e : Vertex) (fuel : ℕ) :
    Except DStatus (List Vertex) :=
  match phase1Go G fuel (initDvs G s) with
  | .error x => .error x
  | .ok dvs =>
    match dvs.find? fun dv => decide (dv.vertex = e) with
    | none => .error .raised
    | some wdv => phase2Go G s dvs fuel wdv [wdv.vertex]

/-- `dijkstra(graph, start, end)`.  Fuel `n + 1` covers every terminating run
of the source (phase 1 finalises one vertex per round, phase 2 either extends
the path each round or repeats its state forever). -/
def dijkstra (G : Graph) (s e : Vertex) : Except DStatus (List Vertex) :=
  dijkstraWithFuel G s e (G.vertices.length + 1)

/-! ### Mutation sequences

A graph reachable through the public API is built by a sequence of
`add_vertex` / `add_edge` / `remove_edge` calls (an `add_vertices` call is its
sequence of constituent `add_vertex` calls; on a failure inside the batch, the
vertices added before it are retained, i.e. the state is the one reached by
the successful prefix, so prefix sequences cover that case too). -/

/-- A single mutating call. -/
inductive Op where
  | addVertex (v : Vertex)
  | addEdge (v u : Vertex) (w : ℤ) (directed : Bool)
  | removeEdge (v u : Vertex) (directed : Bool)
deriving DecidableEq, Repr

/-- Apply one call. -/
def applyOp (G : Graph) : Op → Except GraphError Graph
  | .addVertex v => addVertex G v
  | .addEdge v u w d => addEdge G v u w d
  | .removeEdge v u d => removeEdge G v u d

/-- Apply a sequence of calls, stopping at the first failure. -/
def applyOpsFrom (G : Graph) : List Op → Except GraphError Graph
  | [] => .ok G
  | op :: rest =>
    match applyOp G op with
    | .error e => .error e
    | .ok G' => applyOpsFrom G' rest

/-- Apply a sequence of calls to the empty graph. -/
def applyOps (ops : List Op) : Except GraphError Graph :=
  applyOpsFrom emptyGraph ops

/-- An op that keeps the graph a simple undirected one: adding a vertex, or
adding/removing an undirected edge between two distinct vertices. -/
def Op.undirectedSimple : Op → Prop
  | .addVertex _ => True
  | .addEdge v u _ d => d = false ∧ v ≠ u
  | .removeEdge v u d => d = false ∧ v ≠ u

instance : DecidablePred Op.undirectedSimple := fun op => by
  cases op <;> simp [Op.undirectedSimple] <;> infer_instance

/-! ### Derived predicates used to state the claims -/

/-- The documented representation invariant: the matrix is square with side
`len(vertices)`. -/
def squareMatrix (G : Graph) : Prop :=
  G.matrix.length = G.vertices.length ∧
    ∀ row ∈ G.matrix, row.length = G.vertices.length

instance : DecidablePred squareMatrix := fun G => by
  unfold squareMatrix; infer_instance

/-- `T` is a subgraph of `G` on the same vertices: every nonzero cell of `T`
equals the corresponding cell of `G`. -/
def subgraphB (T G : Graph) : Bool :=
  decide (T.vertices = G.vertices) &&
    decide (T.matrix.length = G.matrix.length) &&
    ((List.range G.vertices.length).all fun i =>
      (List.range G.vertices.length).all fun j =>
        cellAt T.matrix i j = 0 ∨ cellAt T.matrix i j = cellAt G.matrix i j)

/-- `T` is a spanning tree of `G` in the library's own vocabulary: same
vertex list, a subgraph, `is_tree`, and `is_connected`. -/
def isSpanningTreeOfB (T G : Graph) : Bool :=
  subgraphB T G && isTree T && isConnected T

/-! ### Concrete graphs used by the claims -/

/-- The five vertices of the spec's concrete scenario. -/
def vA : Vertex := ⟨"A"⟩
/-- Vertex B. -/
def vB : Vertex := ⟨"B"⟩
/-- Vertex C. -/
def vC : Vertex := ⟨"C"⟩
/-- Vertex D. -/
def vD : Vertex := ⟨"D"⟩
/-- Vertex E. -/
def vE : Vertex := ⟨"E"⟩

/-- The spec's concrete scenario: vertices A..E with undirected edges
A–B(3), A–C(19), A–E(12), B–C(5), B–D(9), C–D(2), C–E(11). -/
def exGraph : Graph :=
  ⟨[vA, vB, vC, vD, vE],
    [[0, 3, 19, 0, 12],
     [3, 0, 5, 9, 0],
     [19, 5, 0, 2, 11],
     [0, 9, 2, 0, 0],
     [12, 0, 11, 0, 0]]⟩

/-- The minimum spanning tree the scenario expects from `kruskal`:
A–B(3), B–C(5), C–D(2), C–E(11), each undirected edge in both cells. -/
def exMST : Graph :=
  ⟨[vA, vB, vC, vD, vE],
    [[0, 3, 0, 0, 0],
     [3, 0, 5, 0, 0],
     [0, 5, 0, 2, 11],
     [0, 0, 2, 0, 0],
     [0, 0, 11, 0, 0]]⟩

/-- Two vertices joined by two directed edges of different weights:
A→B weight 3, B→A weight 5 (claim C4's configuration). -/
def asymGraph : Graph := ⟨[vA, vB], [[0, 3], [5, 0]]⟩

/-- A connected directed graph on which Kruskal's greedy loop returns a
spanning tree that is not of minimal weight: R→A(10), R→B(9), A→B(1),
B→A(2). -/
def vR : Vertex := ⟨"R"⟩

/-- The counterexample graph for claim C1's minimality conjunct. -/
def cx3 : Graph :=
  ⟨[vR, vA, vB],
    [[0, 10, 9],
     [0, 0, 1],
     [0, 2, 0]]⟩

/-- A spanning tree of `cx3` of total weight 11 (R→B(9), B→A(2)), strictly
cheaper than the one `kruskal` returns. -/
def cx3Alt : Graph :=
  ⟨[vR, vA, vB],
    [[0, 0, 9],
     [0, 0, 0],
     [0, 2, 0]]⟩

/-- Two vertices and no edges: `end` is unreachable from `start`, the input
on which the source's `dijkstra` loops forever. -/
def discGraph : Graph := ⟨[vA, vB], [[0, 0], [0, 0]]⟩

/-- The successive phase-1 states of `dijkstra exGraph vA vD`, round 1. -/
def exDvs1 : List DV :=
  [⟨vA, 1, some 0, some (some 0)⟩, ⟨vB, 2, some 3, some (some 3)⟩,
   ⟨vC, 0, some 19, none⟩, ⟨vD, 0, none, none⟩, ⟨vE, 0, some 12, none⟩]

/-- Round 2. -/
def exDvs2 : List DV :=
  [⟨vA, 1, some 0, some (some 0)⟩, ⟨vB, 2, some 3, some (some 3)⟩,
   ⟨vC, 3, some 8, some (some 8)⟩, ⟨vD, 0, some 12, none⟩,
   ⟨vE, 0, some 12, none⟩]

/-- Round 3. -/
def exDvs3 : List DV :=
  [⟨vA, 1, some 0, some (some 0)⟩, ⟨vB, 2, some 3, some (some 3)⟩,
   ⟨vC, 3, some 8, some (some 8)⟩, ⟨vD, 4, some 10, some (some 10)⟩,
   ⟨vE, 0, some 12, none⟩]

/-- Round 4: every vertex finalised. -/
def exDvs4 : List DV :=
  [⟨vA, 1, some 0, some (some 0)⟩, ⟨vB, 2, some 3, some (some 3)⟩,
   ⟨vC, 3, some 8, some (some 8)⟩, ⟨vD, 4, some 10, some (some 10)⟩,
   ⟨vE, 5, some 12, some (some 12)⟩]

/-- The phase-1 fixed point of `dijkstra discGraph vA vB`: the unreachable
vertex B is finalised at infinite distance. -/
def discDvs : List DV :=
  [⟨vA, 1, some 0, some (some 0)⟩, ⟨vB, 2, none, some none⟩]

/-- The `n × n` all-zero matrix: the matrix a graph has right after its
vertices are added and before any edge is set. -/
def zeroM (n : ℕ) : Matrix := List.replicate n (List.replicate n 0)

/-- The matrix positions `add_edge`/`remove_edge` write for one entry of
Kruskal's `directed_edges` list: one cell when directed, both symmetric
cells when undirected. -/
def cellsOfD (vs : List Vertex) (e : DEdge) : List (ℕ × ℕ) :=
  if e.dir then [(idxOf e.v vs, idxOf e.u vs)]
  else [(idxOf e.v vs, idxOf e.u vs), (idxOf e.u vs, idxOf e.v vs)]

/-- The matrix position an `edges` triple was read from. -/
def pairOfT (vs : List Vertex) (t : Vertex × Vertex × ℤ) : ℕ × ℕ :=
  (idxOf t.1 vs, idxOf t.2.1 vs)

/-! ## Driver lemmas for the fuelled loops -/

theorem phase1Go_done {G : Graph} {dvs d : List DV} (fuel : ℕ)
    (h : phase1Step G dvs = .done d) : phase1Go G fuel dvs = .ok d := by
  rw [phase1Go, h]

theorem phase1Go_next {G : Graph} {dvs d : List DV} (fuel : ℕ)
    (h : phase1Step G dvs = .next d) :
    phase1Go G (fuel + 1) dvs = phase1Go G fuel d := by
  rw [phase1Go, h]

theorem phase1Go_next_zero {G : Graph} {dvs d : List DV}
    (h : phase1Step G dvs = .next d) :
    phase1Go G 0 dvs = .error .fuelOut := by
  rw [phase1Go, h]

theorem phase2Go_start {G : Graph} {start : Vertex} {dvs : List DV}
    {wdv : DV} {path : List Vertex} (fuel : ℕ) (h : wdv.vertex = start) :
    phase2Go G start dvs fuel wdv path = .ok path.reverse := by
  rw [phase2Go, if_pos h]

theorem phase2Go_step {G : Graph} {start : Vertex} {dvs : List DV}
    {wdv dv : DV} {wfd : Dist} {path : List Vertex} (fuel : ℕ)
    (hne : ¬ wdv.vertex = start) (hfd : wdv.fd = some wfd)
    (h : phase2Pick G dvs wdv.vertex wfd path = .step dv) :
    phase2Go G start dvs (fuel + 1) wdv path =
      phase2Go G start dvs fuel dv (path ++ [dv.vertex]) := by
  rw [phase2Go, if_neg hne, hfd]
  simp only [h]

theorem phase2Go_nostep {G : Graph} {start : Vertex} {dvs : List DV}
    {wdv : DV} {wfd : Dist} {path : List Vertex} (fuel : ℕ)
    (hne : ¬ wdv.vertex = start) (hfd : wdv.fd = some wfd)
    (h : phase2Pick G dvs wdv.vertex wfd path = .noStep) :
    phase2Go G start dvs (fuel + 1) wdv path =
      phase2Go G start dvs fuel wdv path := by
  rw [phase2Go, if_neg hne, hfd]
  simp only [h]

theorem phase2Go_zero {G : Graph} {start : Vertex} {dvs : List DV}
    {wdv : DV} {wfd : Dist} {path : List Vertex}
    (hne : ¬ wdv.vertex = start) (hfd : wdv.fd = some wfd) :
    phase2Go G start dvs 0 wdv path = .error .fuelOut := by
  rw [phase2Go, if_neg hne, hfd]

/-! ## Claim C2 — the spec's concrete scenario -/

/-- C2: on the concrete graph with vertices A,B,C,D,E and undirected edges
A–B(3), A–C(19), A–E(12), B–C(5), B–D(9), C–D(2), C–E(11), `kruskal` returns
exactly the undirected edges A–B(3), B–C(5), C–D(2), C–E(11) with
`total_weight` 42 (each undirected edge counted in both matrix cells), and
`dijkstra(graph, A, D)` returns the path `[A, B, C, D]`, whose total weight
is 10. -/
theorem claim_C2 :
    kruskal exGraph = .ok exMST ∧ totalWeight exMST = 42 ∧
    dijkstra exGraph vA vD = .ok [vA, vB, vC, vD] ∧
    weightOfPath exGraph [vA, vB, vC, vD] = .ok 10 := by
  refine ⟨by decide, by decide, ?_, by decide⟩
  have s1 : phase1Step exGraph (initDvs exGraph vA) = .next exDvs1 := by
    decide
  have s2 : phase1Step exGraph exDvs1 = .next exDvs2 := by decide
  have s3 : phase1Step exGraph exDvs2 = .next exDvs3 := by decide
  have s4 : phase1Step exGraph exDvs3 = .next exDvs4 := by decide
  have s5 : phase1Step exGraph exDvs4 = .done exDvs4 := by decide
  have h1 : phase1Go exGraph (exGraph.vertices.length + 1)
      (initDvs exGraph vA) = .ok exDvs4 := by
    rw [phase1Go_next _ s1, show exGraph.vertices.length = 4 + 1 from rfl,
      phase1Go_next _ s2, show (4 : ℕ) = 3 + 1 from rfl,
      phase1Go_next _ s3, show (3 : ℕ) = 2 + 1 from rfl,
      phase1Go_next _ s4, phase1Go_done _ s5]
  have f1 : exDvs4.find? (fun dv => decide (dv.vertex = vD)) =
      some ⟨vD, 4, some 10, some (some 10)⟩ := by decide
  have h2 : dijkstra exGraph vA vD =
      phase2Go exGraph vA exDvs4 (exGraph.vertices.length + 1)
        ⟨vD, 4, some 10, some (some 10)⟩ [vD] := by
    unfold dijkstra dijkstraWithFuel
    simp only [h1, f1]
  rw [h2]
  have q1 : phase2Go exGraph vA exDvs4 (5 + 1)
      ⟨vD, 4, some 10, some (some 10)⟩ [vD] =
      phase2Go exGraph vA exDvs4 5 ⟨vC, 3, some 8, some (some 8)⟩ [vD, vC] :=
    phase2Go_step 5 (by decide) rfl (by decide)
  have q2 : phase2Go exGraph vA exDvs4 (4 + 1)
      ⟨vC, 3, some 8, some (some 8)⟩ [vD, vC] =
      phase2Go exGraph vA exDvs4 4 ⟨vB, 2, some 3, some (some 3)⟩
        [vD, vC, vB] :=
    phase2Go_step 4 (by decide) rfl (by decide)
  have q3 : phase2Go exGraph vA exDvs4 (3 + 1)
      ⟨vB, 2, some 3, some (some 3)⟩ [vD, vC, vB] =
      phase2Go exGraph vA exDvs4 3 ⟨vA, 1, some 0, some (some 0)⟩
        [vD, vC, vB, vA] :=
    phase2Go_step 3 (by decide) rfl (by decide)
  rw [show exGraph.vertices.length = 5 from rfl, q1,
    show (5 : ℕ) = 4 + 1 from rfl, q2, show (4 : ℕ) = 3 + 1 from rfl, q3]
  have hs : phase2Go exGraph vA exDvs4 3 ⟨vA, 1, some 0, some (some 0)⟩
      [vD, vC, vB, vA] = .ok ([vD, vC, vB, vA].reverse) :=
    phase2Go_start 3 rfl
  rw [hs]
  decide

/-! ## Claim C3 — Dijkstra on an unreachable end vertex

Phase 1 finalises the unreachable vertex at infinite distance, and phase 2
then repeats its state forever: no round can extend the path, so the source
loops without returning or raising.  The spec requires an explicit
`NoPathExists`-style error instead; the source has no such error, so the
claim describes the intent and the code is the slip. -/

theorem discGraph_phase2_stuck :
    ∀ g, phase2Go discGraph vA discDvs g ⟨vB, 2, none, some none⟩ [vB] =
      .error .fuelOut := by
  intro g
  induction g with
  | zero => exact phase2Go_zero (by decide) rfl
  | succ n ih =>
    rw [phase2Go_nostep n (by decide) rfl (by decide)]
    exact ih

/-- C3: on the two-vertex edgeless graph, with B unreachable from A, the
source's `dijkstra(graph, A, B)` is still running after every finite number
of loop rounds — for every fuel bound the embedding reports fuel exhaustion,
never a returned value and never a raised exception.  The claim instead
requires termination with an explicit `NoPathExists`-style error, which the
code does not implement. -/
theorem claim_C3_dijkstra_loops_forever :
    ∀ fuel, dijkstraWithFuel discGraph vA vB fuel = .error .fuelOut := by
  intro fuel
  have s1 : phase1Step discGraph (initDvs discGraph vA) = .next discDvs := by
    decide
  have s2 : phase1Step discGraph discDvs = .done discDvs := by decide
  cases fuel with
  | zero =>
    unfold dijkstraWithFuel
    simp only [phase1Go_next_zero s1]
  | succ f =>
    have h1 : phase1Go discGraph (f + 1) (initDvs discGraph vA) =
        .ok discDvs := by
      rw [phase1Go_next f s1]
      exact phase1Go_done f s2
    have f1 : discDvs.find? (fun dv => decide (dv.vertex = vB)) =
        some ⟨vB, 2, none, some none⟩ := by decide
    have h2 : dijkstraWithFuel discGraph vA vB (f + 1) =
        phase2Go discGraph vA discDvs (f + 1) ⟨vB, 2, none, some none⟩
          [vB] := by
      unfold dijkstraWithFuel
      simp only [h1, f1]
    rw [h2]
    exact discGraph_phase2_stuck (f + 1)

/-! ## Basic lemmas about `idxOf`, `cellAt` and `updCell` -/

theorem idxOf_lt_length {v : Vertex} {l : List Vertex} (h : v ∈ l) :
    idxOf v l < l.length := by
  induction l with
  | nil => cases h
  | cons u rest ih =>
    rw [idxOf]
    by_cases he : u = v
    · simp [he]
    · rcases List.mem_cons.mp h with h | h
      · exact absurd h.symm he
      · simpa [he] using ih h

theorem idxOf_le_length (v : Vertex) (l : List Vertex) :
    idxOf v l ≤ l.length := by
  induction l with
  | nil => simp [idxOf]
  | cons u rest ih =>
    rw [idxOf]
    by_cases he : u = v
    · simp [he]
    · simp only [he, if_false, List.length_cons]
      omega

theorem getD_idxOf {v : Vertex} {l : List Vertex} (h : v ∈ l) (d : Vertex) :
    l.getD (idxOf v l) d = v := by
  induction l with
  | nil => cases h
  | cons u rest ih =>
    rw [idxOf]
    by_cases he : u = v
    · simp [he]
    · rcases List.mem_cons.mp h with h | h
      · exact absurd h.symm he
      · simpa [he, List.getD_cons_succ] using ih h

theorem idxOf_getD {l : List Vertex} (hnd : l.Nodup) {i : ℕ}
    (h : i < l.length) (d : Vertex) : idxOf (l.getD i d) l = i := by
  induction l generalizing i with
  | nil => simp at h
  | cons u rest ih =>
    rw [List.nodup_cons] at hnd
    obtain ⟨hu, hnd⟩ := hnd
    cases i with
    | zero => simp [idxOf]
    | succ j =>
      have hj : j < rest.length := by simpa using h
      rw [List.getD_cons_succ, idxOf]
      have hmem : rest.getD j d ∈ rest := by
        rw [List.getD_eq_getElem rest d hj]
        exact List.getElem_mem hj
      have hne : ¬ u = rest.getD j d := fun he => hu (he ▸ hmem)
      rw [if_neg hne, ih hnd hj]

theorem idxOf_inj {l : List Vertex} {v u : Vertex}
    (hv : v ∈ l) (hu : u ∈ l) (h : idxOf v l = idxOf u l) : v = u := by
  have h1 := getD_idxOf hv default
  have h2 := getD_idxOf hu default
  rw [← h1, ← h2, h]

theorem cellAt_updCell_self {M : Matrix} {i j : ℕ} (hi : i < M.length)
    (hj : j < (M.getD i []).length) (w : ℤ) :
    cellAt (updCell M i j w) i j = w := by
  unfold cellAt updCell
  have hi' : i < (M.set i ((M.getD i []).set j w)).length := by
    simpa using hi
  rw [List.getD_eq_getElem _ _ hi', List.getElem_set_self]
  have hj' : j < ((M.getD i []).set j w).length := by simpa using hj
  rw [List.getD_eq_getElem _ _ hj', List.getElem_set_self]

theorem getD_set_self {M : Matrix} {i : ℕ} (hi : i < M.length)
    (r : List ℤ) : (M.set i r).getD i [] = r := by
  rw [List.getD_eq_getElem _ _ (by simpa using hi), List.getElem_set_self]

theorem getD_set_ne {M : Matrix} {i k : ℕ} (h : i ≠ k) (r : List ℤ) :
    (M.set i r).getD k [] = M.getD k [] := by
  by_cases hk : k < M.length
  · rw [List.getD_eq_getElem _ _ (by simpa using hk),
      List.getElem_set_ne h, ← List.getD_eq_getElem M [] hk]
  · rw [List.getD_eq_getElem?_getD,
      List.getElem?_eq_none (by rw [List.length_set]; omega),
      List.getD_eq_getElem?_getD M, List.getElem?_eq_none (by omega)]

theorem cellAt_updCell_ne {M : Matrix} {i j i' j' : ℕ}
    (h : i ≠ i' ∨ j ≠ j') (w : ℤ) :
    cellAt (updCell M i j w) i' j' = cellAt M i' j' := by
  unfold cellAt updCell
  by_cases hii : i = i'
  · subst hii
    have hj : j ≠ j' := h.resolve_left (fun hc => hc rfl)
    by_cases hi : i < M.length
    · rw [getD_set_self hi]
      by_cases hj' : j' < (M.getD i []).length
      · rw [List.getD_eq_getElem _ _ (by simpa using hj'),
          List.getElem_set_ne hj, ← List.getD_eq_getElem (M.getD i []) 0 hj']
      · rw [List.getD_eq_getElem?_getD,
          List.getElem?_eq_none (by rw [List.length_set]; omega),
          List.getD_eq_getElem?_getD (M.getD i []),
          List.getElem?_eq_none (by omega)]
    · rw [List.set_eq_of_length_le (by omega)]
  · rw [getD_set_ne hii]

theorem updCell_updCell_same (M : Matrix) (i j : ℕ) (a b : ℤ) :
    updCell (updCell M i j a) i j b = updCell M i j b := by
  unfold updCell
  by_cases hi : i < M.length
  · rw [getD_set_self hi, List.set_set, List.set_set]
  · have hs : M.set i ((M.getD i []).set j a) = M :=
      List.set_eq_of_length_le (by omega)
    rw [hs]

theorem updCell_zero_self {M : Matrix} {i j : ℕ}
    (h : cellAt M i j = 0) : updCell M i j 0 = M := by
  unfold updCell
  unfold cellAt at h
  by_cases hi : i < M.length
  · by_cases hj : j < (M.getD i []).length
    · rw [List.getD_eq_getElem _ _ hj] at h
      have hrow : (M.getD i []).set j 0 = M.getD i [] := by
        apply List.ext_getElem (by simp)
        intro k hk1 hk2
        by_cases hkj : j = k
        · subst hkj
          rw [List.getElem_set_self hk1, h]
        · rw [List.getElem_set_ne hkj]
      rw [hrow, List.getD_eq_getElem _ _ hi]
      apply List.ext_getElem (by simp)
      intro k hk1 hk2
      by_cases hki : i = k
      · subst hki
        rw [List.getElem_set_self hk1]
      · rw [List.getElem_set_ne hki]
    · have hrow : (M.getD i []).set j 0 = M.getD i [] :=
        List.set_eq_of_length_le (by omega)
      rw [hrow, List.getD_eq_getElem _ _ hi]
      apply List.ext_getElem (by simp)
      intro k hk1 hk2
      by_cases hki : i = k
      · subst hki
        rw [List.getElem_set_self hk1]
      · rw [List.getElem_set_ne hki]
  · exact List.set_eq_of_length_le (by omega)

theorem updCell_comm {M : Matrix} {i j i' j' : ℕ} (h : i ≠ i')
    (a b : ℤ) :
    updCell (updCell M i j a) i' j' b = updCell (updCell M i' j' b) i j a := by
  unfold updCell
  rw [getD_set_ne h, getD_set_ne (Ne.symm h), List.set_comm _ _ _ h]

/-! ## Claim C5 — connectivity of graphs with 0 or 1 vertices

The source's `is_connected` tries `_is_connected(vertex, [])` for each vertex
in turn; with no vertices the loop body never runs and the property returns
`False`, so the claim's 0-vertex half fails on the code.  The 1-vertex half
holds: the very first coverage check `set([vertex]) == set(self.vertices)`
succeeds. -/

theorem isConnectedAux_single {G : Graph} {v : Vertex} (hv : G.vertices = [v])
    (fuel : ℕ) : isConnectedAux G (fuel + 1) v [] = true := by
  have hset : setEqB ([] ++ [v]) G.vertices = true := by
    simp [setEqB, hv]
  simp only [isConnectedAux, hset, if_true]

/-- C5 counterexample: the empty graph has 0 vertices, yet `is_connected`
returns `false` (the claim asserts `true`). -/
theorem claim_C5_counterexample :
    emptyGraph.vertices.length = 0 ∧ isConnected emptyGraph = false := by
  decide

/-- C5 as amended: a graph with exactly one vertex reports `is_connected ==
true`, but a graph with zero vertices reports `is_connected == false` (the
start-vertex loop has nothing to iterate over). -/
theorem claim_C5_amended :
    (∀ G : Graph, G.vertices.length = 1 → isConnected G = true) ∧
    (∀ G : Graph, G.vertices.length = 0 → isConnected G = false) := by
  constructor
  · intro G h
    obtain ⟨v, hv⟩ := List.length_eq_one.mp h
    unfold isConnected
    rw [hv]
    simp only [List.any_cons, List.any_nil, Bool.or_false]
    exact isConnectedAux_single hv
      (([v].length + 1) * ([v].length + 1) + 1)
  · intro G h
    rw [List.length_eq_zero] at h
    unfold isConnected
    rw [h]
    rfl

/-- C5 witness: the amended claim applied to the one-vertex graph on A and to
the empty graph. -/
theorem claim_C5_witness :
    isConnected ⟨[vA], [[0]]⟩ = true ∧ isConnected emptyGraph = false :=
  ⟨claim_C5_amended.1 ⟨[vA], [[0]]⟩ (by decide),
   claim_C5_amended.2 emptyGraph (by decide)⟩

/-! ## Claim C8 — error conditions of the mutating calls

`add_vertex` checks membership before touching any state, and `_set_edge`
checks both endpoints before writing any cell, so a failing call raises
before mutating anything: in the embedding an `error` result carries no new
graph at all, which is exactly the claim's "fully rejected per call". -/

/-- C8: `add_vertex(v)` fails (with the `VertexAlreadyAdded` error and no
other) exactly when `v` is already a member by equality, and
`add_edge`/`remove_edge` fail (with the `VertexMissing`-kind error and no
other) exactly when an endpoint is missing; a failing call produces no
mutated graph. -/
theorem claim_C8_error_conditions :
    (∀ (G : Graph) (v : Vertex),
      (addVertex G v = .error .vertexAlreadyAdded ↔ v ∈ G.vertices) ∧
      ((∃ e, addVertex G v = .error e) ↔ v ∈ G.vertices)) ∧
    (∀ (G : Graph) (v u : Vertex) (w : ℤ) (d : Bool),
      (addEdge G v u w d = .error .vertexDoesntExist ↔
        (v ∉ G.vertices ∨ u ∉ G.vertices)) ∧
      ((∃ e, addEdge G v u w d = .error e) ↔
        (v ∉ G.vertices ∨ u ∉ G.vertices))) ∧
    (∀ (G : Graph) (v u : Vertex) (d : Bool),
      (removeEdge G v u d = .error .vertexDoesntExist ↔
        (v ∉ G.vertices ∨ u ∉ G.vertices)) ∧
      ((∃ e, removeEdge G v u d = .error e) ↔
        (v ∉ G.vertices ∨ u ∉ G.vertices))) := by
  refine ⟨fun G v => ?_, fun G v u w d => ?_, fun G v u d => ?_⟩
  · by_cases hv : v ∈ G.vertices <;> simp [addVertex, hv]
  · by_cases hv : v ∈ G.vertices <;> by_cases hu : u ∈ G.vertices <;>
      simp [addEdge, setEdge, hv, hu]
  · by_cases hv : v ∈ G.vertices <;> by_cases hu : u ∈ G.vertices <;>
      simp [removeEdge, setEdge, hv, hu]

/-! ## Claim C4 — `get_connected_vertices` and the asymmetric-weight cycle -/

theorem mem_getConnectedVertices {G : Graph} (hsq : squareMatrix G)
    (hnd : G.vertices.Nodup) {v : Vertex} (hv : v ∈ G.vertices)
    (w : Vertex) (avoid : List Vertex) :
    w ∈ getConnectedVertices G v avoid ↔
      w ∈ G.vertices ∧
      cellAt G.matrix (idxOf v G.vertices) (idxOf w G.vertices) ≠ 0 ∧
      (w ∉ avoid ∨
        cellAt G.matrix (idxOf w G.vertices) (idxOf v G.vertices) ≠
          cellAt G.matrix (idxOf v G.vertices) (idxOf w G.vertices)) := by
  obtain ⟨hlen, hrows⟩ := hsq
  have hvilt : idxOf v G.vertices < G.matrix.length := by
    rw [hlen]; exact idxOf_lt_length hv
  have hrow : G.matrix.getD (idxOf v G.vertices) [] ∈ G.matrix := by
    rw [List.getD_eq_getElem _ _ hvilt]; exact List.getElem_mem hvilt
  have hrlen : (G.matrix.getD (idxOf v G.vertices) []).length =
      G.vertices.length := hrows _ hrow
  unfold getConnectedVertices
  rw [List.mem_filterMap]
  constructor
  · rintro ⟨⟨i, x⟩, hmem, hfx⟩
    obtain ⟨hi, hx⟩ := List.mem_enum hmem
    by_cases hc : x ≠ 0 ∧ (G.vertices.getD i default ∉ avoid ∨
        cellAt G.matrix i (idxOf v G.vertices) ≠
          cellAt G.matrix (idxOf v G.vertices) i)
    · rw [if_pos hc] at hfx
      obtain ⟨hx0, hcond⟩ := hc
      have hiv : i < G.vertices.length := by rw [← hrlen]; exact hi
      injection hfx with hfw
      subst hfw
      refine ⟨?_, ?_, ?_⟩
      · rw [List.getD_eq_getElem _ _ hiv]
        exact List.getElem_mem hiv
      · rw [idxOf_getD hnd hiv]
        unfold cellAt
        rw [List.getD_eq_getElem _ 0 hi, ← hx]
        exact hx0
      · rw [idxOf_getD hnd hiv]
        exact hcond
    · rw [if_neg hc] at hfx
      cases hfx
  · rintro ⟨hwmem, hcell, hcond⟩
    have hwl : idxOf w G.vertices < G.vertices.length := idxOf_lt_length hwmem
    have hwr : idxOf w G.vertices <
        (G.matrix.getD (idxOf v G.vertices) []).length := by
      rw [hrlen]; exact hwl
    refine ⟨(idxOf w G.vertices,
      (G.matrix.getD (idxOf v G.vertices) []).getD (idxOf w G.vertices) 0),
      ?_, ?_⟩
    · rw [List.mem_iff_getElem]
      refine ⟨idxOf w G.vertices, by simpa using hwr, ?_⟩
      rw [List.getElem_enum _ _ (by simpa using hwr),
        List.getD_eq_getElem _ 0 hwr]
    · have hgd : G.vertices.getD (idxOf w G.vertices) default = w :=
        getD_idxOf hwmem default
      rw [hgd, if_pos ⟨hcell, hcond⟩]

/-- C4: `get_connected_vertices(v, avoid)` returns exactly the vertices `w`
with `matrix[index(v)][index(w)] != 0`, excluding members of `avoid` except
when `matrix[index(w)][index(v)]` differs from `matrix[index(v)][index(w)]`;
consequently, on the two-vertex graph with directed edge A→B of weight 3 and
directed edge B→A of weight 5, `has_cycles` is true. -/
theorem claim_C4_neighbours :
    (∀ (G : Graph) (v w : Vertex) (avoid : List Vertex),
      squareMatrix G → G.vertices.Nodup → v ∈ G.vertices →
      (w ∈ getConnectedVertices G v avoid ↔
        w ∈ G.vertices ∧
        cellAt G.matrix (idxOf v G.vertices) (idxOf w G.vertices) ≠ 0 ∧
        (w ∉ avoid ∨
          cellAt G.matrix (idxOf w G.vertices) (idxOf v G.vertices) ≠
            cellAt G.matrix (idxOf v G.vertices) (idxOf w G.vertices)))) ∧
    hasCycles asymGraph = true :=
  ⟨fun _ v w avoid hsq hnd hv => mem_getConnectedVertices hsq hnd hv w avoid,
   by decide⟩

/-! ## Claim C7 — the matrix stays square under mutation

A freshly constructed graph has `matrix == [[]]` (one empty row, zero
vertices), which is not square; the first `add_vertex` replaces it by
`[[0]]`, and from then on every mutation preserves squareness.  The invariant
carried through the induction is "square with at least one vertex, or still
the initial state". -/

theorem addVertex_ok {G G' : Graph} {v : Vertex}
    (h : addVertex G v = .ok G') :
    v ∉ G.vertices ∧ G'.vertices = G.vertices ++ [v] ∧
    G'.matrix = (if G.matrix = [[]] then [[0]]
      else (G.matrix.map fun row => row ++ [0]) ++
        [List.replicate
          ((G.matrix.map fun row => row ++ [0]).headD []).length 0]) := by
  unfold addVertex at h
  by_cases hv : v ∈ G.vertices
  · rw [if_pos hv] at h
    cases h
  · rw [if_neg hv] at h
    injection h with h
    exact ⟨hv, by rw [← h], by rw [← h]⟩

theorem setEdge_ok {G G' : Graph} {v u : Vertex} {w : ℤ} {d : Bool}
    (h : setEdge G v u w d = .ok G') :
    v ∈ G.vertices ∧ u ∈ G.vertices ∧ G'.vertices = G.vertices ∧
    G'.matrix = (if d then
        updCell G.matrix (idxOf v G.vertices) (idxOf u G.vertices) w
      else
        updCell (updCell G.matrix (idxOf v G.vertices)
          (idxOf u G.vertices) w) (idxOf u G.vertices)
          (idxOf v G.vertices) w) := by
  unfold setEdge at h
  by_cases hv : v ∈ G.vertices
  · by_cases hu : u ∈ G.vertices
    · rw [if_neg (by simpa using hv), if_neg (by simpa using hu)] at h
      injection h with h
      exact ⟨hv, hu, by rw [← h], by rw [← h]⟩
    · rw [if_neg (by simpa using hv), if_pos (by simpa using hu)] at h
      cases h
  · rw [if_pos (by simpa using hv)] at h
    cases h

theorem squareMatrix_updCell {V : List Vertex} {M : Matrix} (i j : ℕ)
    (w : ℤ) (h : squareMatrix ⟨V, M⟩) : squareMatrix ⟨V, updCell M i j w⟩ := by
  obtain ⟨hlen, hrows⟩ := h
  constructor
  · simpa [updCell] using hlen
  · intro row hrow
    unfold updCell at hrow
    by_cases hi : i < M.length
    · rcases List.mem_or_eq_of_mem_set hrow with hr | hr
      · exact hrows _ hr
      · subst hr
        rw [List.length_set]
        refine hrows _ ?_
        rw [List.getD_eq_getElem _ _ hi]
        exact List.getElem_mem hi
    · rw [List.set_eq_of_length_le (by omega)] at hrow
      exact hrows _ hrow

theorem applyOp_inv {G G' : Graph} {op : Op}
    (hG : (squareMatrix G ∧ G.vertices ≠ []) ∨ G = emptyGraph)
    (h : applyOp G op = .ok G') :
    (squareMatrix G' ∧ G'.vertices ≠ []) ∨ G' = emptyGraph := by
  left
  cases op with
  | addVertex v =>
    obtain ⟨hv, hver, hmat⟩ := addVertex_ok h
    refine ⟨?_, by simp [hver]⟩
    rcases hG with ⟨⟨hlen, hrows⟩, hne⟩ | rfl
    · by_cases hm : G.matrix = [[]]
      · exfalso
        rw [hm] at hlen hrows
        have h0 := hrows [] (by simp)
        simp at hlen h0
        rw [← hlen] at h0
        cases h0
      · rw [if_neg hm] at hmat
        have hmne : G.matrix ≠ [] := by
          intro hc
          rw [hc] at hlen
          exact hne (List.eq_nil_of_length_eq_zero hlen.symm)
        obtain ⟨r0, rest, hsplit⟩ := List.exists_cons_of_ne_nil hmne
        have hhead : (G.matrix.map fun row => row ++ [0]).headD [] =
            r0 ++ [0] := by rw [hsplit]; rfl
        have hr0 : r0.length = G.vertices.length :=
          hrows r0 (by rw [hsplit]; exact List.mem_cons_self r0 rest)
        constructor
        · rw [hmat, hver]
          simp [hlen]
        · intro row hrow
          rw [hmat] at hrow
          rcases List.mem_append.mp hrow with hr | hr
          · obtain ⟨r1, hr1, hr1e⟩ := List.mem_map.mp hr
            rw [← hr1e, hver]
            simp [hrows r1 hr1]
          · rw [List.mem_singleton.mp hr, List.length_replicate, hhead,
              hver]
            simp [hr0]
    · rw [if_pos (show emptyGraph.matrix = [[]] from rfl)] at hmat
      rw [show emptyGraph.vertices = [] from rfl] at hver
      constructor
      · rw [hmat, hver]
        simp
      · intro row hrow
        rw [hmat] at hrow
        rw [List.mem_singleton.mp hrow, hver]
        simp
  | addEdge v u w d =>
    obtain ⟨hv, hu, hver, hmat⟩ := setEdge_ok h
    rcases hG with ⟨hsq, hne⟩ | rfl
    · refine ⟨?_, by rw [hver]; exact hne⟩
      have h1 : squareMatrix ⟨G.vertices, G'.matrix⟩ := by
        rw [hmat]
        by_cases hd : d = true
        · rw [if_pos hd]
          exact squareMatrix_updCell _ _ _ hsq
        · rw [if_neg hd]
          exact squareMatrix_updCell _ _ _ (squareMatrix_updCell _ _ _ hsq)
      have hG' : G' = ⟨G.vertices, G'.matrix⟩ := by rw [← hver]
      rw [hG']
      exact h1
    · exact absurd hv (by simp [emptyGraph])
  | removeEdge v u d =>
    obtain ⟨hv, hu, hver, hmat⟩ := setEdge_ok h
    rcases hG with ⟨hsq, hne⟩ | rfl
    · refine ⟨?_, by rw [hver]; exact hne⟩
      have h1 : squareMatrix ⟨G.vertices, G'.matrix⟩ := by
        rw [hmat]
        by_cases hd : d = true
        · rw [if_pos hd]
          exact squareMatrix_updCell _ _ _ hsq
        · rw [if_neg hd]
          exact squareMatrix_updCell _ _ _ (squareMatrix_updCell _ _ _ hsq)
      have hG' : G' = ⟨G.vertices, G'.matrix⟩ := by rw [← hver]
      rw [hG']
      exact h1
    · exact absurd hv (by simp [emptyGraph])

theorem applyOp_ok_vertices_ne {G G' : Graph} {op : Op}
    (h : applyOp G op = .ok G') : G'.vertices ≠ [] := by
  cases op with
  | addVertex v =>
    obtain ⟨_, hver, _⟩ := addVertex_ok h
    simp [hver]
  | addEdge v u w d =>
    obtain ⟨hv, _, hver, _⟩ := setEdge_ok h
    rw [hver]
    exact List.ne_nil_of_mem hv
  | removeEdge v u d =>
    obtain ⟨hv, _, hver, _⟩ := setEdge_ok h
    rw [hver]
    exact List.ne_nil_of_mem hv

theorem applyOpsFrom_sq :
    ∀ (ops : List Op) (G0 G : Graph), squareMatrix G0 → G0.vertices ≠ [] →
    applyOpsFrom G0 ops = .ok G → squareMatrix G ∧ G.vertices ≠ [] := by
  intro ops
  induction ops with
  | nil =>
    intro G0 G hsq hne h
    rw [applyOpsFrom] at h
    injection h with h
    subst h
    exact ⟨hsq, hne⟩
  | cons op rest ih =>
    intro G0 G hsq hne h
    rw [applyOpsFrom] at h
    cases hop : applyOp G0 op with
    | error e =>
      rw [hop] at h
      cases h
    | ok G1 =>
      rw [hop] at h
      have hinv := applyOp_inv (Or.inl ⟨hsq, hne⟩) hop
      have hne1 := applyOp_ok_vertices_ne hop
      rcases hinv with ⟨hsq1, _⟩ | he
      · exact ih G1 G hsq1 hne1 h
      · exact absurd (by rw [he]; rfl) hne1

/-- C7: after every successful mutation — any nonempty sequence of
`add_vertex`, `add_edge`, `remove_edge` calls applied from the fresh graph
(`add_vertices` being its sequence of `add_vertex` calls) — the matrix is
square with side `len(vertices)`:  `len(matrix) == len(vertices)`, and every
row has length `len(vertices)`. -/
theorem claim_C7_square_matrix (ops : List Op) (G : Graph)
    (hne : ops ≠ []) (h : applyOps ops = .ok G) :
    G.matrix.length = G.vertices.length ∧
      ∀ row ∈ G.matrix, row.length = G.vertices.length := by
  cases ops with
  | nil => exact absurd rfl hne
  | cons op rest =>
    unfold applyOps at h
    rw [applyOpsFrom] at h
    cases hop : applyOp emptyGraph op with
    | error e =>
      rw [hop] at h
      cases h
    | ok G1 =>
      rw [hop] at h
      have hinv := applyOp_inv (Or.inr rfl) hop
      have hne1 := applyOp_ok_vertices_ne hop
      rcases hinv with ⟨hsq1, _⟩ | he
      · exact (applyOpsFrom_sq rest G1 G hsq1 hne1 h).1
      · exact absurd (by rw [he]; rfl) hne1

/-- C7 witness: the single mutation `add_vertex(A)` yields the square 1×1
matrix. -/
theorem claim_C7_witness :
    ([Op.addVertex vA] ≠ [] ∧
      applyOps [Op.addVertex vA] = .ok ⟨[vA], [[0]]⟩) ∧
    (Graph.mk [vA] [[0]]).matrix.length =
        (Graph.mk [vA] [[0]]).vertices.length ∧
      ∀ row ∈ (Graph.mk [vA] [[0]]).matrix,
        row.length = (Graph.mk [vA] [[0]]).vertices.length :=
  ⟨⟨by decide, by decide⟩,
   claim_C7_square_matrix [Op.addVertex vA] ⟨[vA], [[0]]⟩ (by decide)
     (by decide)⟩

/-! ## Claim C9 — the handshake lemma

A graph built by `add_vertex` calls and undirected `add_edge`/`remove_edge`
calls between distinct vertices keeps a symmetric matrix with a zero
diagonal; for such a matrix the count of odd-degree rows is even. -/

theorem getD_append_zero (row : List ℤ) (j : ℕ) :
    (row ++ [0]).getD j 0 = row.getD j 0 := by
  induction row generalizing j with
  | nil => cases j <;> rfl
  | cons x xs ih =>
    cases j with
    | zero => rfl
    | succ k => simpa [List.getD_cons_succ] using ih k

theorem cellAt_row_oob {M : Matrix} {i : ℕ} (h : M.length ≤ i) (j : ℕ) :
    cellAt M i j = 0 := by
  have hrow : M.getD i [] = [] := by
    rw [List.getD_eq_getElem?_getD, List.getElem?_eq_none h]
    rfl
  unfold cellAt
  rw [hrow]
  rfl

theorem getD_replicate_zero (k j : ℕ) :
    (List.replicate k (0 : ℤ)).getD j 0 = 0 := by
  induction k generalizing j with
  | zero => rfl
  | succ n ih =>
    cases j with
    | zero => rfl
    | succ m =>
      rw [List.replicate_succ, List.getD_cons_succ]
      exact ih m

theorem addVertex_cellAt {G G' : Graph} {v : Vertex}
    (hsq : squareMatrix G) (_hne : G.vertices ≠ [])
    (h : addVertex G v = .ok G') :
    ∀ i j, cellAt G'.matrix i j = cellAt G.matrix i j := by
  obtain ⟨hv, hver, hmat⟩ := addVertex_ok h
  obtain ⟨hlen, hrows⟩ := hsq
  have hm : G.matrix ≠ [[]] := by
    intro hc
    rw [hc] at hlen hrows
    have h0 := hrows [] (by simp)
    simp at hlen h0
    rw [← hlen] at h0
    cases h0
  rw [if_neg hm] at hmat
  intro i j
  rw [hmat]
  by_cases hi : i < G.matrix.length
  · have hrow : ((G.matrix.map fun row => row ++ [0]) ++
        [List.replicate
          ((G.matrix.map fun row => row ++ [0]).headD []).length 0]).getD
        i [] = (G.matrix.getD i []) ++ [0] := by
      rw [List.getD_eq_getElem?_getD, List.getElem?_append,
        if_pos (by simpa using hi),
        List.getElem?_eq_getElem (by simpa using hi), List.getElem_map]
      simp only [Option.getD_some]
      rw [List.getD_eq_getElem _ _ hi]
    unfold cellAt
    rw [hrow, getD_append_zero]
  · by_cases hieq : i = G.matrix.length
    · subst hieq
      have hrep : ((G.matrix.map fun row => row ++ [0]) ++
          [List.replicate
            ((G.matrix.map fun row => row ++ [0]).headD []).length 0]).getD
          G.matrix.length [] = List.replicate
            ((G.matrix.map fun row => row ++ [0]).headD []).length 0 := by
        rw [List.getD_eq_getElem?_getD, List.getElem?_append,
          if_neg (by simp)]
        simp
      have hr : G.matrix.getD G.matrix.length [] = [] := by
        rw [List.getD_eq_getElem?_getD, List.getElem?_eq_none (le_refl _)]
        rfl
      unfold cellAt
      rw [hrep, getD_replicate_zero, hr]
      rfl
    · have hb1 : ((G.matrix.map fun row => row ++ [0]) ++
          [List.replicate
            ((G.matrix.map fun row => row ++ [0]).headD []).length 0]).length
          ≤ i := by
        simp only [List.length_append, List.length_map, List.length_singleton]
        omega
      have hb2 : G.matrix.length ≤ i := by omega
      rw [cellAt_row_oob hb1 j, cellAt_row_oob hb2 j]

theorem rowlen_of_square {G : Graph} (hsq : squareMatrix G) {i : ℕ}
    (hi : i < G.matrix.length) :
    (G.matrix.getD i []).length = G.vertices.length := by
  refine hsq.2 _ ?_
  rw [List.getD_eq_getElem _ _ hi]
  exact List.getElem_mem hi

theorem setEdge_undirected_cells {G G' : Graph} {v u : Vertex} {w : ℤ}
    (hsq : squareMatrix G) (hvu : v ≠ u)
    (h : setEdge G v u w false = .ok G') :
    cellAt G'.matrix (idxOf v G.vertices) (idxOf u G.vertices) = w ∧
    cellAt G'.matrix (idxOf u G.vertices) (idxOf v G.vertices) = w ∧
    ∀ i j, ¬(i = idxOf v G.vertices ∧ j = idxOf u G.vertices) →
      ¬(i = idxOf u G.vertices ∧ j = idxOf v G.vertices) →
      cellAt G'.matrix i j = cellAt G.matrix i j := by
  obtain ⟨hv, hu, hver, hmat⟩ := setEdge_ok h
  rw [if_neg Bool.false_ne_true] at hmat
  have hvin : idxOf v G.vertices < G.vertices.length := idxOf_lt_length hv
  have huin : idxOf u G.vertices < G.vertices.length := idxOf_lt_length hu
  have hne : idxOf v G.vertices ≠ idxOf u G.vertices :=
    fun hc => hvu (idxOf_inj hv hu hc)
  have hM1 : squareMatrix ⟨G.vertices,
      updCell G.matrix (idxOf v G.vertices) (idxOf u G.vertices) w⟩ :=
    squareMatrix_updCell _ _ _ hsq
  have hM1len : (updCell G.matrix (idxOf v G.vertices)
      (idxOf u G.vertices) w).length = G.vertices.length := hM1.1
  have hb1 : idxOf v G.vertices < G.matrix.length := by
    rw [hsq.1]; exact hvin
  have hb2 : idxOf u G.vertices <
      (G.matrix.getD (idxOf v G.vertices) []).length := by
    rw [rowlen_of_square hsq hb1]; exact huin
  have hb3 : idxOf u G.vertices < (updCell G.matrix (idxOf v G.vertices)
      (idxOf u G.vertices) w).length := by
    rw [hM1len]; exact huin
  have hb4 : idxOf v G.vertices <
      ((updCell G.matrix (idxOf v G.vertices) (idxOf u G.vertices) w).getD
        (idxOf u G.vertices) []).length := by
    rw [rowlen_of_square hM1 hb3]; exact hvin
  refine ⟨?_, ?_, ?_⟩
  · rw [hmat, cellAt_updCell_ne (Or.inl (Ne.symm hne)),
      cellAt_updCell_self hb1 hb2]
  · rw [hmat, cellAt_updCell_self hb3 hb4]
  · intro i j h1 h2
    have h2' : ¬(idxOf u G.vertices = i ∧ idxOf v G.vertices = j) :=
      fun ⟨a, b⟩ => h2 ⟨a.symm, b.symm⟩
    have h1' : ¬(idxOf v G.vertices = i ∧ idxOf u G.vertices = j) :=
      fun ⟨a, b⟩ => h1 ⟨a.symm, b.symm⟩
    rw [hmat, cellAt_updCell_ne (by tauto), cellAt_updCell_ne (by tauto)]

theorem setEdge_symZero {G G' : Graph} {v u : Vertex} {w : ℤ}
    (hsq : squareMatrix G) (hvu : v ≠ u)
    (h : setEdge G v u w false = .ok G')
    (hsym : ∀ i j, cellAt G.matrix i j = cellAt G.matrix j i)
    (hdiag : ∀ i, cellAt G.matrix i i = 0) :
    (∀ i j, cellAt G'.matrix i j = cellAt G'.matrix j i) ∧
    (∀ i, cellAt G'.matrix i i = 0) := by
  obtain ⟨hc1, hc2, hco⟩ := setEdge_undirected_cells hsq hvu h
  have hne : idxOf v G.vertices ≠ idxOf u G.vertices :=
    fun hc => hvu (idxOf_inj (setEdge_ok h).1 (setEdge_ok h).2.1 hc)
  constructor
  · intro i j
    by_cases h1 : i = idxOf v G.vertices ∧ j = idxOf u G.vertices
    · obtain ⟨rfl, rfl⟩ := h1
      rw [hc1, hc2]
    · by_cases h2 : i = idxOf u G.vertices ∧ j = idxOf v G.vertices
      · obtain ⟨rfl, rfl⟩ := h2
        rw [hc1, hc2]
      · rw [hco i j h1 h2, hco j i (by tauto) (by tauto), hsym i j]
  · intro i
    have h1 : ¬(i = idxOf v G.vertices ∧ i = idxOf u G.vertices) :=
      fun ⟨a, b⟩ => hne (a ▸ b ▸ rfl)
    have h2 : ¬(i = idxOf u G.vertices ∧ i = idxOf v G.vertices) :=
      fun ⟨a, b⟩ => hne (b ▸ a ▸ rfl)
    rw [hco i i h1 h2, hdiag i]

theorem applyOp_symZero {G G' : Graph} {op : Op}
    (hop : op.undirectedSimple)
    (hG : (squareMatrix G ∧ G.vertices ≠ [] ∧
      (∀ i j, cellAt G.matrix i j = cellAt G.matrix j i) ∧
      (∀ i, cellAt G.matrix i i = 0)) ∨ G = emptyGraph)
    (h : applyOp G op = .ok G') :
    (squareMatrix G' ∧ G'.vertices ≠ [] ∧
      (∀ i j, cellAt G'.matrix i j = cellAt G'.matrix j i) ∧
      (∀ i, cellAt G'.matrix i i = 0)) ∨ G' = emptyGraph := by
  left
  have hshape : (squareMatrix G ∧ G.vertices ≠ []) ∨ G = emptyGraph := by
    rcases hG with ⟨a, b, _⟩ | e
    · exact Or.inl ⟨a, b⟩
    · exact Or.inr e
  have hsq' : squareMatrix G' := by
    rcases applyOp_inv hshape h with ⟨a, _⟩ | e
    · exact a
    · exact absurd (by rw [e]; rfl) (applyOp_ok_vertices_ne h)
  refine ⟨hsq', applyOp_ok_vertices_ne h, ?_⟩
  cases op with
  | addVertex v =>
    rcases hG with ⟨hsq, hne, hsym, hdiag⟩ | rfl
    · have hcells := addVertex_cellAt hsq hne h
      exact ⟨fun i j => by rw [hcells i j, hcells j i, hsym i j],
        fun i => by rw [hcells i i, hdiag i]⟩
    · obtain ⟨hv, hver, hmat⟩ := addVertex_ok h
      rw [if_pos (show emptyGraph.matrix = [[]] from rfl)] at hmat
      have hz : ∀ i j, cellAt [[0]] i j = 0 := by
        intro i j
        cases i with
        | zero =>
          cases j with
          | zero => rfl
          | succ m => rfl
        | succ m => rfl
      exact ⟨fun i j => by rw [hmat, hz i j, hz j i],
        fun i => by rw [hmat, hz i i]⟩
  | addEdge v u wt d =>
    obtain ⟨hd, hvu⟩ := hop
    subst hd
    have h' : setEdge G v u wt false = .ok G' := h
    rcases hG with ⟨hsq, hne, hsym, hdiag⟩ | rfl
    · exact setEdge_symZero hsq hvu h' hsym hdiag
    · exact absurd (setEdge_ok h').1 (by simp [emptyGraph])
  | removeEdge v u d =>
    obtain ⟨hd, hvu⟩ := hop
    subst hd
    have h' : setEdge G v u 0 false = .ok G' := h
    rcases hG with ⟨hsq, hne, hsym, hdiag⟩ | rfl
    · exact setEdge_symZero hsq hvu h' hsym hdiag
    · exact absurd (setEdge_ok h').1 (by simp [emptyGraph])

theorem applyOpsFrom_symZero :
    ∀ (ops : List Op) (G0 G : Graph), (∀ op ∈ ops, op.undirectedSimple) →
    ((squareMatrix G0 ∧ G0.vertices ≠ [] ∧
      (∀ i j, cellAt G0.matrix i j = cellAt G0.matrix j i) ∧
      (∀ i, cellAt G0.matrix i i = 0)) ∨ G0 = emptyGraph) →
    applyOpsFrom G0 ops = .ok G →
    (squareMatrix G ∧ G.vertices ≠ [] ∧
      (∀ i j, cellAt G.matrix i j = cellAt G.matrix j i) ∧
      (∀ i, cellAt G.matrix i i = 0)) ∨ G = emptyGraph := by
  intro ops
  induction ops with
  | nil =>
    intro G0 G hops hG h
    rw [applyOpsFrom] at h
    injection h with h
    subst h
    exact hG
  | cons op rest ih =>
    intro G0 G hops hG h
    rw [applyOpsFrom] at h
    cases hop : applyOp G0 op with
    | error e =>
      rw [hop] at h
      cases h
    | ok G1 =>
      rw [hop] at h
      exact ih G1 G (fun o ho => hops o (List.mem_cons_of_mem _ ho))
        (applyOp_symZero (hops op (List.mem_cons_self _ _)) hG hop) h

theorem list_map_sum_eq {α : Type} (f : α → ℕ) (d : α) (L : List α) :
    (L.map f).sum = ∑ i ∈ Finset.range L.length, f (L.getD i d) := by
  induction L with
  | nil => simp
  | cons x xs ih =>
    rw [List.map_cons, List.sum_cons, List.length_cons,
      Finset.sum_range_succ']
    simp only [List.getD_cons_succ, List.getD_cons_zero]
    rw [← ih]
    omega

theorem filter_length_eq_sum (row : List ℤ) :
    (row.filter fun e => decide (e ≠ 0)).length =
    ∑ j ∈ Finset.range row.length, if row.getD j 0 ≠ 0 then 1 else 0 := by
  induction row with
  | nil => simp
  | cons x xs ih =>
    rw [List.length_cons, Finset.sum_range_succ']
    simp only [List.getD_cons_succ, List.getD_cons_zero]
    rw [← ih]
    by_cases hx : x ≠ 0
    · rw [List.filter_cons_of_pos (by simpa using hx), if_pos hx,
        List.length_cons]
    · rw [List.filter_cons_of_neg (by simpa using hx), if_neg hx]
      omega

theorem handshake_core {M : Matrix}
    (hsym : ∀ i j, cellAt M i j = cellAt M j i)
    (hdiag : ∀ i, cellAt M i i = 0) (n : ℕ) :
    (∑ i ∈ Finset.range n, ∑ j ∈ Finset.range n,
      if cellAt M i j ≠ 0 then 1 else 0) % 2 = 0 := by
  have hz : (((∑ i ∈ Finset.range n, ∑ j ∈ Finset.range n,
      if cellAt M i j ≠ 0 then 1 else 0 : ℕ)) : ZMod 2) = 0 := by
    push_cast
    rw [← Finset.sum_product']
    refine Finset.sum_involution (fun p _ => (p.2, p.1)) ?_ ?_ ?_ ?_
    · intro p hp
      have he : (if cellAt M p.1 p.2 ≠ 0 then (1 : ZMod 2) else 0) =
          (if cellAt M p.2 p.1 ≠ 0 then (1 : ZMod 2) else 0) := by
        rw [hsym p.1 p.2]
      rw [he]
      exact CharTwo.add_self_eq_zero _
    · intro p hp hfp hc
      apply hfp
      have h12 : p.2 = p.1 := congrArg Prod.fst hc
      rw [h12, hdiag p.1]
      simp
    · intro p hp
      simp only [Finset.mem_product] at hp ⊢
      exact ⟨hp.2, hp.1⟩
    · intro p hp
      rfl
  have hdvd : 2 ∣ (∑ i ∈ Finset.range n, ∑ j ∈ Finset.range n,
      if cellAt M i j ≠ 0 then 1 else 0) :=
    (ZMod.natCast_zmod_eq_zero_iff_dvd _ 2).mp hz
  omega

theorem numberOfOddNodes_even {G : Graph} (hsq : squareMatrix G)
    (hsym : ∀ i j, cellAt G.matrix i j = cellAt G.matrix j i)
    (hdiag : ∀ i, cellAt G.matrix i i = 0) :
    Even (numberOfOddNodes G) := by
  unfold numberOfOddNodes
  rw [Nat.even_iff, list_map_sum_eq _ [], ← Finset.sum_nat_mod]
  have hrw : ∀ i ∈ Finset.range G.matrix.length,
      ((G.matrix.getD i []).filter fun e => decide (e ≠ 0)).length =
      ∑ j ∈ Finset.range G.vertices.length,
        if cellAt G.matrix i j ≠ 0 then 1 else 0 := by
    intro i hi
    rw [Finset.mem_range] at hi
    rw [filter_length_eq_sum, rowlen_of_square hsq hi]
    exact Finset.sum_congr rfl fun j _ => rfl
  rw [Finset.sum_congr rfl hrw, hsq.1]
  exact handshake_core hsym hdiag G.vertices.length

/-- C9: for every graph built purely from `add_vertex` calls and undirected
`add_edge`/`remove_edge` calls between distinct vertices (so the matrix stays
symmetric with a zero diagonal), `number_of_odd_nodes` is even — the
handshake lemma. -/
theorem claim_C9_handshake (ops : List Op) (G : Graph)
    (hops : ∀ op ∈ ops, op.undirectedSimple) (h : applyOps ops = .ok G) :
    Even (numberOfOddNodes G) := by
  rcases applyOpsFrom_symZero ops emptyGraph G hops (Or.inr rfl) h with
    ⟨hsq, _, hsym, hdiag⟩ | rfl
  · exact numberOfOddNodes_even hsq hsym hdiag
  · exact even_zero

/-- C9 witness: the path A–B–C built through the API has two odd vertices,
an even count. -/
theorem claim_C9_witness :
    (∀ op ∈ [Op.addVertex vA, Op.addVertex vB, Op.addVertex vC,
      Op.addEdge vA vB 1 false, Op.addEdge vB vC 1 false],
      op.undirectedSimple) ∧
    applyOps [Op.addVertex vA, Op.addVertex vB, Op.addVertex vC,
      Op.addEdge vA vB 1 false, Op.addEdge vB vC 1 false] =
      .ok ⟨[vA, vB, vC], [[0, 1, 0], [1, 0, 1], [0, 1, 0]]⟩ ∧
    Even (numberOfOddNodes ⟨[vA, vB, vC], [[0, 1, 0], [1, 0, 1], [0, 1, 0]]⟩)
    := by
  refine ⟨by decide, by decide, ?_⟩
  exact claim_C9_handshake
    [Op.addVertex vA, Op.addVertex vB, Op.addVertex vC,
      Op.addEdge vA vB 1 false, Op.addEdge vB vC 1 false]
    ⟨[vA, vB, vC], [[0, 1, 0], [1, 0, 1], [0, 1, 0]]⟩ (by decide) (by decide)

/-! ## Claim C6 — `dijkstra(G, s, s) == [s]`

Phase 1 always terminates: each round the current entry (the one of maximal
order) is already visited, so the freshly finalised entry is a different,
previously unvisited one, and the unvisited count drops by one.  Phase 2 then
starts at the end vertex, which equals the start vertex, and returns
immediately with the one-element path. -/

theorem pickStep_none {α : Type} (better : α → α → Bool) (x : α) :
    pickStep better none x = some x := rfl

theorem pickStep_some {α : Type} (better : α → α → Bool) (b x : α) :
    pickStep better (some b) x = if better x b then some x else some b := rfl

theorem foldPick_pred {α : Type} (better : α → α → Bool) (P : α → Prop) :
    ∀ (l : List α) (acc : Option α), (∀ y, acc = some y → P y) →
    (∀ x ∈ l, P x) → ∀ z,
    l.foldl (pickStep better) acc = some z → P z := by
  intro l
  induction l with
  | nil =>
    intro acc hacc _ z hz
    exact hacc z hz
  | cons x xs ih =>
    intro acc hacc hl z hz
    rw [List.foldl_cons] at hz
    refine ih _ ?_ (fun y hy => hl y (List.mem_cons_of_mem _ hy)) z hz
    intro y hy
    cases acc with
    | none =>
      rw [pickStep_none] at hy
      injection hy with hy
      exact hy ▸ hl x (List.mem_cons_self _ _)
    | some b =>
      rw [pickStep_some] at hy
      by_cases hb : better x b = true
      · rw [if_pos hb] at hy
        injection hy with hy
        exact hy ▸ hl x (List.mem_cons_self _ _)
      · rw [if_neg hb] at hy
        injection hy with hy
        exact hy ▸ hacc b rfl

theorem foldPick_mem {α : Type} (better : α → α → Bool) {l : List α}
    {z : α} (h : foldPick better l = some z) : z ∈ l :=
  foldPick_pred better (· ∈ l) l none (fun y hy => by cases hy)
    (fun x hx => hx) z h

theorem foldPick_isSome {α : Type} (better : α → α → Bool) :
    ∀ (l : List α) (acc : Option α), acc.isSome ∨ l ≠ [] →
    (l.foldl (pickStep better) acc).isSome := by
  intro l
  induction l with
  | nil =>
    intro acc h
    rcases h with h | h
    · exact h
    · exact absurd rfl h
  | cons x xs ih =>
    intro acc h
    rw [List.foldl_cons]
    refine ih _ (Or.inl ?_)
    cases acc with
    | none => rfl
    | some b =>
      rw [pickStep_some]
      by_cases hb : better x b = true
      · rw [if_pos hb]
        rfl
      · rw [if_neg hb]
        rfl

theorem foldPick_max (key : ℕ × DV → ℕ) :
    ∀ (l : List (ℕ × DV)) (acc : Option (ℕ × DV)) (z : ℕ × DV),
    l.foldl (pickStep fun x b => key b < key x) acc = some z →
    (∀ x ∈ l, key x ≤ key z) ∧ (∀ y, acc = some y → key y ≤ key z) := by
  intro l
  induction l with
  | nil =>
    intro acc z hz
    refine ⟨fun x hx => absurd hx (List.not_mem_nil x), fun y hy => ?_⟩
    have h' : acc = some z := hz
    rw [hy] at h'
    injection h' with h'
    rw [h']
  | cons x xs ih =>
    intro acc z hz
    rw [List.foldl_cons] at hz
    obtain ⟨h1, h2⟩ := ih _ z hz
    have hstep : ∀ y, acc = some y → key y ≤ key z := by
      intro y hy
      subst hy
      by_cases hb : key y < key x
      · have := h2 x (by rw [pickStep_some, if_pos (by simpa using hb)])
        omega
      · exact h2 y (by rw [pickStep_some, if_neg (by simpa using hb)])
    refine ⟨?_, hstep⟩
    intro a ha
    rcases List.mem_cons.mp ha with rfl | ha
    · cases acc with
      | none => exact h2 a (by rw [pickStep_none])
      | some b =>
        by_cases hb : key b < key a
        · exact h2 a (by rw [pickStep_some, if_pos (by simpa using hb)])
        · have := h2 b (by rw [pickStep_some, if_neg (by simpa using hb)])
          omega
    · exact h1 a ha

theorem relaxOne_fields (G : Graph) (cdv : DV) (cfd : Dist)
    (conn : List Vertex) (dv : DV) :
    (relaxOne G cdv cfd conn dv).vertex = dv.vertex ∧
    (relaxOne G cdv cfd conn dv).order = dv.order ∧
    (relaxOne G cdv cfd conn dv).fd = dv.fd := by
  unfold relaxOne
  split
  · split
    · exact ⟨rfl, rfl, rfl⟩
    · exact ⟨rfl, rfl, rfl⟩
  · exact ⟨rfl, rfl, rfl⟩

theorem relaxOne_visited (G : Graph) (cdv : DV) (cfd : Dist)
    (conn : List Vertex) (dv : DV) :
    (relaxOne G cdv cfd conn dv).visited = dv.visited := by
  unfold DV.visited
  rw [(relaxOne_fields G cdv cfd conn dv).2.2]

theorem relaxAll_map_vertex (G : Graph) (cdv : DV) (cfd : Dist)
    (dvs : List DV) :
    (relaxAll G cdv cfd dvs).map (fun dv => dv.vertex) =
      dvs.map (fun dv => dv.vertex) := by
  unfold relaxAll
  rw [List.map_map]
  exact List.map_congr_left fun dv _ => (relaxOne_fields _ _ _ _ dv).1

theorem relaxAll_length (G : Graph) (cdv : DV) (cfd : Dist)
    (dvs : List DV) : (relaxAll G cdv cfd dvs).length = dvs.length := by
  unfold relaxAll
  rw [List.length_map]

theorem relaxAll_filter_not_visited (G : Graph) (cdv : DV) (cfd : Dist)
    (dvs : List DV) :
    ((relaxAll G cdv cfd dvs).filter fun dv => !dv.visited).length =
      (dvs.filter fun dv => !dv.visited).length := by
  unfold relaxAll
  rw [List.filter_map, List.length_map]
  congr 1
  apply List.filter_congr
  intro dv _
  rw [Function.comp_apply, relaxOne_visited]

theorem filter_length_set_lt {l : List DV} {i : ℕ}
    (p : DV → Bool) (b : DV) (hi : i < l.length)
    (ha : p (l.getD i b) = true) (hb : p b = false) :
    ((l.set i b).filter p).length + 1 = (l.filter p).length := by
  induction l generalizing i with
  | nil => simp at hi
  | cons x xs ih =>
    cases i with
    | zero =>
      rw [List.getD_cons_zero] at ha
      rw [List.set_cons_zero, List.filter_cons, List.filter_cons, ha, hb]
      simp
    | succ k =>
      have hk : k < xs.length := by simpa using hi
      rw [List.getD_cons_succ] at ha
      rw [List.set_cons_succ, List.filter_cons, List.filter_cons]
      by_cases hx : p x = true
      · rw [hx]
        simp only [if_true, List.length_cons]
        rw [← ih hk ha]
      · rw [Bool.not_eq_true] at hx
        rw [hx]
        simp only [Bool.false_eq_true, if_false]
        exact ih hk ha

theorem list_set_same {α : Type} (l : List α) (i : ℕ) (x : α)
    (hi : i < l.length) (hx : l[i] = x) : l.set i x = l := by
  apply List.ext_getElem (by simp)
  intro n h1 h2
  by_cases hn : i = n
  · subst hn
    rw [List.getElem_set_self h1, ← hx]
  · rw [List.getElem_set_ne hn]

theorem phase1Step_spec {G : Graph} {dvs : List DV}
    (hJ : ∀ dv ∈ dvs, dv.visited = true ↔ 1 ≤ dv.order)
    (hvis : ∃ dv ∈ dvs, dv.visited = true)
    (hun : 0 < (dvs.filter fun dv => !dv.visited).length) :
    ∃ d, phase1Step G dvs = .next d ∧
      d.map (fun dv => dv.vertex) = dvs.map (fun dv => dv.vertex) ∧
      (∀ dv ∈ d, dv.visited = true ↔ 1 ≤ dv.order) ∧
      (∃ dv ∈ d, dv.visited = true) ∧
      (d.filter fun dv => !dv.visited).length + 1 =
        (dvs.filter fun dv => !dv.visited).length := by
  obtain ⟨v0, hv0mem, hv0vis⟩ := hvis
  have hne : dvs ≠ [] := List.ne_nil_of_mem hv0mem
  have henne : dvs.enum ≠ [] := by
    intro hc
    have hc' := congrArg List.length hc
    rw [List.enum_length] at hc'
    exact hne (List.eq_nil_of_length_eq_zero hc')
  obtain ⟨⟨ci, cdv⟩, hmax⟩ := Option.isSome_iff_exists.mp
    (foldPick_isSome (fun x b => b.2.order < x.2.order) dvs.enum none
      (Or.inr henne))
  have hmax' : foldPick (fun x b => b.2.order < x.2.order) dvs.enum =
      some (ci, cdv) := hmax
  obtain ⟨hmaxall, -⟩ :=
    foldPick_max (fun p => p.2.order) dvs.enum none (ci, cdv) hmax'
  have hcmem : (ci, cdv) ∈ dvs.enum := foldPick_mem _ hmax'
  obtain ⟨hcilt, hcieq⟩ := List.mem_enum hcmem
  have hcdvmem : cdv ∈ dvs := by
    rw [hcieq]
    exact List.getElem_mem hcilt
  obtain ⟨k, hk, hkv⟩ := List.mem_iff_getElem.mp hv0mem
  have hkenum : (k, v0) ∈ dvs.enum := by
    rw [List.mem_iff_getElem]
    refine ⟨k, by simpa using hk, ?_⟩
    rw [List.getElem_enum _ _ (by simpa using hk), hkv]
  have hv0ord : 1 ≤ v0.order := (hJ v0 hv0mem).mp hv0vis
  have hcord : 1 ≤ cdv.order :=
    le_trans hv0ord (hmaxall (k, v0) hkenum)
  have hcvis : cdv.visited = true := (hJ cdv hcdvmem).mpr hcord
  have hcfd0 : cdv.fd.isSome = true := hcvis
  obtain ⟨cfd, hcfd⟩ := Option.isSome_iff_exists.mp hcfd0
  -- the relaxed list
  have hd1len : (relaxAll G cdv cfd dvs).length = dvs.length :=
    relaxAll_length G cdv cfd dvs
  have hd1get : ∀ (j : ℕ) (hja : j < dvs.length)
      (hjb : j < (relaxAll G cdv cfd dvs).length),
      (relaxAll G cdv cfd dvs)[j] =
        relaxOne G cdv cfd (getConnectedVertices G cdv.vertex
          ((dvs.filter fun dv => dv.visited).map fun dv => dv.vertex))
          dvs[j] := by
    intro j hja hjb
    unfold relaxAll
    rw [List.getElem_map]
  -- an unvisited index exists
  have hfne : dvs.filter (fun dv => !dv.visited) ≠ [] := by
    intro hc
    rw [hc] at hun
    simp at hun
  obtain ⟨u0, hu0f⟩ := List.exists_mem_of_ne_nil _ hfne
  have hu0mem : u0 ∈ dvs := (List.mem_filter.mp hu0f).1
  have hu0un : u0.visited = false := by
    have := (List.mem_filter.mp hu0f).2
    simpa using this
  obtain ⟨j, hj, hju⟩ := List.mem_iff_getElem.mp hu0mem
  have hj1 : j < (relaxAll G cdv cfd dvs).length := by
    rw [hd1len]
    exact hj
  have hci1 : ci < (relaxAll G cdv cfd dvs).length := by
    rw [hd1len]
    exact hcilt
  have hd1jvis : ((relaxAll G cdv cfd dvs)[j]).visited = false := by
    rw [hd1get j hj hj1, relaxOne_visited, hju, hu0un]
  have hd1civis : ((relaxAll G cdv cfd dvs)[ci]).visited = true := by
    rw [hd1get ci hcilt hci1, relaxOne_visited, ← hcieq, hcvis]
  have hjci : j ≠ ci := by
    intro hc
    subst hc
    rw [hd1jvis] at hd1civis
    cases hd1civis
  have hjf : (j, (relaxAll G cdv cfd dvs)[j]) ∈
      (relaxAll G cdv cfd dvs).enum.filter fun q =>
        decide (q.1 ≠ ci) && !q.2.visited := by
    rw [List.mem_filter]
    constructor
    · rw [List.mem_iff_getElem]
      refine ⟨j, by simpa using hj1, ?_⟩
      rw [List.getElem_enum _ _ (by simpa using hj1)]
    · simp [hjci, hd1jvis]
  obtain ⟨⟨ni, ndv⟩, hmin⟩ := Option.isSome_iff_exists.mp
    (foldPick_isSome (fun x b => x.2.wd.lt b.2.wd) _ none
      (Or.inr (List.ne_nil_of_mem hjf)))
  have hmin' : foldPick (fun x b => x.2.wd.lt b.2.wd)
      ((relaxAll G cdv cfd dvs).enum.filter fun q =>
        decide (q.1 ≠ ci) && !q.2.visited) = some (ni, ndv) := hmin
  have hninf := foldPick_mem _ hmin'
  rw [List.mem_filter] at hninf
  obtain ⟨hnenum, hnpred⟩ := hninf
  obtain ⟨hnilt, hnieq⟩ := List.mem_enum hnenum
  have hndvvis : ndv.visited = false := by
    have := (Bool.and_eq_true .. |>.mp hnpred).2
    simpa using this
  refine ⟨(relaxAll G cdv cfd dvs).set ni
    ⟨ndv.vertex, cdv.order + 1, ndv.wd, some ndv.wd⟩, ?_, ?_, ?_, ?_, ?_⟩
  · unfold phase1Step
    rw [if_pos hun]
    simp only [hmax', hcfd, hmin']
  · rw [List.map_set]
    have hb : ni < ((relaxAll G cdv cfd dvs).map fun dv =>
        dv.vertex).length := by
      rw [List.length_map]
      exact hnilt
    have hvx : ((relaxAll G cdv cfd dvs).map fun dv => dv.vertex)[ni] =
        ndv.vertex := by
      rw [List.getElem_map, ← hnieq]
    rw [list_set_same _ ni _ hb hvx]
    exact relaxAll_map_vertex G cdv cfd dvs
  · intro dv hdv
    rcases List.mem_or_eq_of_mem_set hdv with hdv | rfl
    · obtain ⟨pre, hpre, hpree⟩ := List.mem_map.mp hdv
      rw [← hpree]
      unfold DV.visited
      rw [(relaxOne_fields _ _ _ _ pre).2.2, (relaxOne_fields _ _ _ _ pre).2.1]
      exact hJ pre hpre
    · constructor
      · intro
        show 1 ≤ cdv.order + 1
        omega
      · intro
        rfl
  · refine ⟨⟨ndv.vertex, cdv.order + 1, ndv.wd, some ndv.wd⟩, ?_, rfl⟩
    have hb : ni < ((relaxAll G cdv cfd dvs).set ni
        ⟨ndv.vertex, cdv.order + 1, ndv.wd, some ndv.wd⟩).length := by
      rw [List.length_set]
      exact hnilt
    have hset : ((relaxAll G cdv cfd dvs).set ni
        ⟨ndv.vertex, cdv.order + 1, ndv.wd, some ndv.wd⟩)[ni] =
        ⟨ndv.vertex, cdv.order + 1, ndv.wd, some ndv.wd⟩ :=
      List.getElem_set_self hb
    have hmem := List.getElem_mem hb
    rwa [hset] at hmem
  · have ha : (!((relaxAll G cdv cfd dvs).getD ni
        ⟨ndv.vertex, cdv.order + 1, ndv.wd, some ndv.wd⟩).visited) = true := by
      rw [List.getD_eq_getElem _ _ hnilt, ← hnieq, hndvvis]
      rfl
    have h1 := filter_length_set_lt (fun dv => !dv.visited)
      ⟨ndv.vertex, cdv.order + 1, ndv.wd, some ndv.wd⟩ hnilt ha rfl
    rw [← relaxAll_filter_not_visited G cdv cfd dvs]
    exact h1

theorem phase1Go_complete {G : Graph} : ∀ (fuel : ℕ) (dvs : List DV),
    (∀ dv ∈ dvs, dv.visited = true ↔ 1 ≤ dv.order) →
    (∃ dv ∈ dvs, dv.visited = true) →
    (dvs.filter fun dv => !dv.visited).length ≤ fuel →
    ∃ d, phase1Go G fuel dvs = .ok d ∧
      d.map (fun dv => dv.vertex) = dvs.map (fun dv => dv.vertex) := by
  intro fuel
  induction fuel with
  | zero =>
    intro dvs hJ hvis hlen
    have hstep : phase1Step G dvs = .done dvs := by
      unfold phase1Step
      rw [if_neg (by omega)]
    exact ⟨dvs, phase1Go_done 0 hstep, rfl⟩
  | succ f ih =>
    intro dvs hJ hvis hlen
    by_cases h0 : 0 < (dvs.filter fun dv => !dv.visited).length
    · obtain ⟨d, hstep, hnames, hJ', hvis', hcount⟩ :=
        phase1Step_spec hJ hvis h0
      obtain ⟨d2, hgo, hnames2⟩ := ih d hJ' hvis' (by omega)
      exact ⟨d2, by rw [phase1Go_next f hstep]; exact hgo,
        by rw [hnames2, hnames]⟩
    · have hstep : phase1Step G dvs = .done dvs := by
        unfold phase1Step
        rw [if_neg h0]
      exact ⟨dvs, phase1Go_done _ hstep, rfl⟩

/-- C6: for every graph `G` and member vertex `s`, `dijkstra(G, s, s)`
terminates and returns the single-element path `[s]` (phase 1 finalises one
vertex per round until none is left; phase 2 exits at once because the end
vertex is the start vertex). -/
theorem claim_C6_dijkstra_self (G : Graph) (s : Vertex)
    (_hs : s ∈ G.vertices) (_hnd : G.vertices.Nodup) :
    dijkstra G s s = .ok [s] := by
  unfold dijkstra dijkstraWithFuel
  have hJ0 : ∀ dv ∈ initDvs G s, dv.visited = true ↔ 1 ≤ dv.order := by
    intro dv hdv
    rcases List.mem_cons.mp hdv with rfl | hdv
    · exact ⟨fun _ => le_refl 1, fun _ => rfl⟩
    · obtain ⟨v, hv, rfl⟩ := List.mem_map.mp hdv
      constructor
      · intro hc
        cases hc
      · intro hc
        simp at hc
  have hvis0 : ∃ dv ∈ initDvs G s, dv.visited = true :=
    ⟨⟨s, 1, some 0, some (some 0)⟩, List.mem_cons_self _ _, rfl⟩
  have hlen0 : ((initDvs G s).filter fun dv => !dv.visited).length ≤
      G.vertices.length + 1 := by
    have : ((initDvs G s).filter fun dv => !dv.visited).length ≤
        (initDvs G s).length := List.length_filter_le _ _
    unfold initDvs at this ⊢
    rw [List.length_cons, List.length_map] at this
    have hf : (G.vertices.filter fun v => decide (v ≠ s)).length ≤
        G.vertices.length := List.length_filter_le _ _
    omega
  obtain ⟨d, hgo, hnames⟩ :=
    phase1Go_complete (G.vertices.length + 1) (initDvs G s) hJ0 hvis0 hlen0
  have hdshape : ∃ dv0 tl, d = dv0 :: tl ∧ dv0.vertex = s := by
    cases d with
    | nil =>
      rw [List.map_nil, initDvs, List.map_cons] at hnames
      cases hnames
    | cons dv0 tl =>
      refine ⟨dv0, tl, rfl, ?_⟩
      have hh := congrArg (fun l => l.headD s) hnames
      rw [initDvs] at hh
      simpa using hh
  obtain ⟨dv0, tl, rfl, hdv0⟩ := hdshape
  have hfind : (dv0 :: tl).find? (fun dv => decide (dv.vertex = s)) =
      some dv0 := List.find?_cons_of_pos _ (by simp [hdv0])
  rw [hgo]
  show (match List.find? (fun dv => decide (dv.vertex = s)) (dv0 :: tl) with
      | none => (Except.error DStatus.raised : Except DStatus (List Vertex))
      | some wdv => phase2Go G s (dv0 :: tl) (G.vertices.length + 1) wdv
          [wdv.vertex]) = Except.ok [s]
  rw [hfind]
  have hp2 : phase2Go G s (dv0 :: tl) (G.vertices.length + 1) dv0
      [dv0.vertex] = .ok ([dv0.vertex].reverse) := phase2Go_start _ hdv0
  show phase2Go G s (dv0 :: tl) (G.vertices.length + 1) dv0 [dv0.vertex] =
    Except.ok [s]
  rw [hp2, hdv0]
  rfl

/-- C6 witness: `dijkstra exGraph vC vC` under the theorem's hypotheses. -/
theorem claim_C6_witness :
    vC ∈ exGraph.vertices ∧ exGraph.vertices.Nodup ∧
      dijkstra exGraph vC vC = .ok [vC] :=
  ⟨by decide, by decide,
   claim_C6_dijkstra_self exGraph vC (by decide) (by decide)⟩

/-- C4 witness: the characterisation applied to `asymGraph`, vertex A, with B
in the avoid list: B is still returned, because the two directed weights
differ. -/
theorem claim_C4_witness :
    squareMatrix asymGraph ∧ asymGraph.vertices.Nodup ∧ vA ∈
      asymGraph.vertices ∧
    (vB ∈ getConnectedVertices asymGraph vA [vB] ↔
      vB ∈ asymGraph.vertices ∧
      cellAt asymGraph.matrix (idxOf vA asymGraph.vertices)
        (idxOf vB asymGraph.vertices) ≠ 0 ∧
      (vB ∉ [vB] ∨
        cellAt asymGraph.matrix (idxOf vB asymGraph.vertices)
          (idxOf vA asymGraph.vertices) ≠
          cellAt asymGraph.matrix (idxOf vA asymGraph.vertices)
            (idxOf vB asymGraph.vertices))) :=
  ⟨by decide, by decide, by decide,
   claim_C4_neighbours.1 asymGraph vA vB [vB] (by decide) (by decide)
     (by decide)⟩


/-! ## Kruskal: shared machinery for claims C1 and C10

`kruskal` enumerates the nonzero matrix cells row-major (`edgeList`),
stable-sorts the triples by weight, coalesces exact reverse pairs into
undirected entries (`coalesce`), and then greedily adds each entry to a
fresh graph on the same vertices, undoing an addition that closes a cycle
(`buildTree`).  The proofs track, for each entry, the list of matrix cells
it writes (`cellsOfD`): the cells of the pending entries are pairwise
distinct and still zero in the tree under construction, which makes the
source's add-then-undo step an exact restore of the previous matrix. -/

theorem except_bind_ok {α β : Type} (x : α) (f : α → Except GraphError β) :
    (Except.ok x >>= f) = f x := rfl

theorem except_pure_eq_ok {α : Type} (x : α) :
    (pure x : Except GraphError α) = Except.ok x := rfl

theorem pair_ne_or {p q : ℕ × ℕ} (h : p ≠ q) : p.1 ≠ q.1 ∨ p.2 ≠ q.2 := by
  rcases p with ⟨a, b⟩
  rcases q with ⟨c, d⟩
  by_cases h1 : a = c
  · subst h1
    by_cases h2 : b = d
    · subst h2
      exact absurd rfl h
    · exact Or.inr h2
  · exact Or.inl h1

theorem flatMap_congr_mem {α β : Type} {l : List α} {f g : α → List β}
    (h : ∀ a ∈ l, f a = g a) : l.flatMap f = l.flatMap g := by
  induction l with
  | nil => rfl
  | cons x xs ih =>
    rw [List.flatMap_cons, List.flatMap_cons, h x (List.mem_cons_self x xs),
      ih fun a ha => h a (List.mem_cons_of_mem x ha)]

theorem filterMap_congr_mem {α β : Type} {l : List α} {f g : α → Option β}
    (h : ∀ a ∈ l, f a = g a) : l.filterMap f = l.filterMap g := by
  induction l with
  | nil => rfl
  | cons x xs ih =>
    rw [List.filterMap_cons, List.filterMap_cons,
      h x (List.mem_cons_self x xs),
      ih fun a ha => h a (List.mem_cons_of_mem x ha)]

theorem enum_eq_enumFrom {α : Type} (l : List α) : l.enum = l.enumFrom 0 := rfl

/-! ### The positions of the nonzero cells are pairwise distinct -/

theorem posRow_mem {row : List ℤ} {i : ℕ} : ∀ {k : ℕ} {c : ℕ × ℕ},
    c ∈ (row.enumFrom k).filterMap
      (fun q => if q.2 ≠ 0 then some (i, q.1) else none) →
    c.1 = i ∧ k ≤ c.2 := by
  induction row with
  | nil =>
    intro k c h
    rw [List.enumFrom_nil] at h
    cases h
  | cons x xs ih =>
    intro k c h
    rw [List.enumFrom_cons] at h
    by_cases hx : x ≠ 0
    · rw [List.filterMap_cons_some (by rw [if_pos hx])] at h
      rcases List.mem_cons.mp h with rfl | h
      · exact ⟨rfl, le_refl k⟩
      · obtain ⟨h1, h2⟩ := ih h
        exact ⟨h1, by omega⟩
    · rw [List.filterMap_cons_none (by rw [if_neg hx])] at h
      obtain ⟨h1, h2⟩ := ih h
      exact ⟨h1, by omega⟩

theorem posRow_nodup {row : List ℤ} {i : ℕ} : ∀ (k : ℕ),
    ((row.enumFrom k).filterMap
      (fun q => if q.2 ≠ 0 then some (i, q.1) else none)).Nodup := by
  induction row with
  | nil =>
    intro k
    rw [List.enumFrom_nil]
    exact List.nodup_nil
  | cons x xs ih =>
    intro k
    rw [List.enumFrom_cons]
    by_cases hx : x ≠ 0
    · rw [List.filterMap_cons_some (by rw [if_pos hx])]
      refine List.nodup_cons.mpr ⟨?_, ih (k + 1)⟩
      intro hmem
      have h2 := (posRow_mem hmem).2
      simp at h2
    · rw [List.filterMap_cons_none (by rw [if_neg hx])]
      exact ih (k + 1)

theorem posMat_mem {M : Matrix} : ∀ {m : ℕ} {c : ℕ × ℕ},
    c ∈ (M.enumFrom m).flatMap (fun p =>
      p.2.enum.filterMap
        (fun q => if q.2 ≠ 0 then some (p.1, q.1) else none)) →
    m ≤ c.1 := by
  induction M with
  | nil =>
    intro m c h
    rw [List.enumFrom_nil, List.flatMap_nil] at h
    cases h
  | cons row M ih =>
    intro m c h
    rw [List.enumFrom_cons, List.flatMap_cons] at h
    rcases List.mem_append.mp h with h | h
    · have h1 : c.1 = m := by
        rw [enum_eq_enumFrom] at h
        exact (posRow_mem h).1
      omega
    · have := ih h
      omega

theorem posMat_nodup {M : Matrix} : ∀ (m : ℕ),
    ((M.enumFrom m).flatMap (fun p =>
      p.2.enum.filterMap
        (fun q => if q.2 ≠ 0 then some (p.1, q.1) else none))).Nodup := by
  induction M with
  | nil =>
    intro m
    rw [List.enumFrom_nil, List.flatMap_nil]
    exact List.nodup_nil
  | cons row M ih =>
    intro m
    rw [List.enumFrom_cons, List.flatMap_cons, List.nodup_append]
    refine ⟨?_, ih (m + 1), ?_⟩
    · rw [enum_eq_enumFrom]
      exact posRow_nodup 0
    · intro c hc1 hc2
      have h1 : c.1 = m := by
        rw [enum_eq_enumFrom] at hc1
        exact (posRow_mem hc1).1
      have h2 : m + 1 ≤ c.1 := posMat_mem hc2
      omega

theorem edgeList_map_pairOf {G : Graph} (hsq : squareMatrix G)
    (hnd : G.vertices.Nodup) :
    (edgeList G).map (pairOfT G.vertices) =
      (G.matrix.enumFrom 0).flatMap (fun p =>
        p.2.enum.filterMap
          (fun q => if q.2 ≠ 0 then some (p.1, q.1) else none)) := by
  unfold edgeList
  rw [enum_eq_enumFrom, List.map_flatMap]
  apply flatMap_congr_mem
  rintro ⟨i, row⟩ hp
  rw [← enum_eq_enumFrom] at hp
  obtain ⟨hi, hrow⟩ := List.mem_enum hp
  dsimp only
  rw [List.map_filterMap]
  apply filterMap_congr_mem
  rintro ⟨j, x⟩ hq
  obtain ⟨hj, hx⟩ := List.mem_enum hq
  dsimp only
  have hi' : i < G.vertices.length := by rw [← hsq.1]; exact hi
  have hj' : j < G.vertices.length := by
    have hj2 : j < row.length := hj
    have hr : row.length = G.vertices.length :=
      hsq.2 row (by rw [hrow]; exact List.getElem_mem hi)
    omega
  by_cases hx0 : x ≠ 0
  · rw [if_pos hx0, if_pos hx0, Option.map_some']
    show some (pairOfT G.vertices
      (G.vertices.getD i default, G.vertices.getD j default, x)) = some (i, j)
    unfold pairOfT
    rw [idxOf_getD hnd hi', idxOf_getD hnd hj']
  · rw [if_neg hx0, if_neg hx0]
    rfl

theorem edgeList_pair_nodup {G : Graph} (hsq : squareMatrix G)
    (hnd : G.vertices.Nodup) :
    ((edgeList G).map (pairOfT G.vertices)).Nodup := by
  rw [edgeList_map_pairOf hsq hnd]
  exact posMat_nodup 0

theorem mem_edgeList_iff {G : Graph} (hsq : squareMatrix G)
    {t : Vertex × Vertex × ℤ} :
    t ∈ edgeList G ↔ ∃ i j, i < G.vertices.length ∧
      j < G.vertices.length ∧ cellAt G.matrix i j ≠ 0 ∧
      t = (G.vertices.getD i default, G.vertices.getD j default,
        cellAt G.matrix i j) := by
  unfold edgeList
  rw [List.mem_flatMap]
  constructor
  · rintro ⟨⟨i, row⟩, hp, ht⟩
    obtain ⟨hi, hrow⟩ := List.mem_enum hp
    rw [List.mem_filterMap] at ht
    obtain ⟨⟨j, x⟩, hq, hqx⟩ := ht
    obtain ⟨hj, hx⟩ := List.mem_enum hq
    by_cases hx0 : x ≠ 0
    · rw [if_pos hx0] at hqx
      injection hqx with hqx
      have hi' : i < G.vertices.length := by rw [← hsq.1]; exact hi
      have hr : row.length = G.vertices.length :=
        hsq.2 row (by rw [hrow]; exact List.getElem_mem hi)
      have hj2 : j < row.length := hj
      have hj' : j < G.vertices.length := by omega
      have hx2 : x = row[j] := hx
      have hcell : cellAt G.matrix i j = x := by
        unfold cellAt
        rw [List.getD_eq_getElem _ _ hi, ← hrow,
          List.getD_eq_getElem _ _ hj2, ← hx2]
      refine ⟨i, j, hi', hj', ?_, ?_⟩
      · rw [hcell]; exact hx0
      · rw [hcell, ← hqx]
    · rw [if_neg hx0] at hqx
      cases hqx
  · rintro ⟨i, j, hi, hj, hw, rfl⟩
    have hi' : i < G.matrix.length := by rw [hsq.1]; exact hi
    have hrl : (G.matrix.getD i []).length = G.vertices.length :=
      rowlen_of_square hsq hi'
    have hj' : j < (G.matrix.getD i []).length := by omega
    refine ⟨(i, G.matrix.getD i []), ?_, ?_⟩
    · rw [List.mem_iff_getElem]
      refine ⟨i, by rw [List.enum_length]; exact hi', ?_⟩
      rw [List.getElem_enum, List.getD_eq_getElem _ _ hi']
    · rw [List.mem_filterMap]
      refine ⟨(j, (G.matrix.getD i []).getD j 0), ?_, ?_⟩
      · rw [List.mem_iff_getElem]
        refine ⟨j, by rw [List.enum_length]; exact hj', ?_⟩
        rw [List.getElem_enum, List.getD_eq_getElem _ _ hj']
      · have hcell : ((G.matrix.getD i []).getD j 0 : ℤ) =
            cellAt G.matrix i j := rfl
        rw [hcell, if_pos hw]


/-! ### The stable sort is a permutation of the edge list -/

theorem insertAsc_perm {α : Type} (lt : α → α → Bool) (x : α) :
    ∀ l : List α, (insertAsc lt x l).Perm (x :: l) := by
  intro l
  induction l with
  | nil => exact List.Perm.refl _
  | cons y ys ih =>
    rw [insertAsc]
    by_cases h : lt y x = true
    · rw [if_pos h]
      exact (ih.cons y).trans (List.Perm.swap x y ys)
    · rw [if_neg h]

theorem stableSortBy_perm {α : Type} (lt : α → α → Bool) :
    ∀ l : List α, (stableSortBy lt l).Perm l := by
  intro l
  induction l with
  | nil => exact List.Perm.refl _
  | cons x xs ih =>
    rw [stableSortBy]
    exact (insertAsc_perm lt x (stableSortBy lt xs)).trans (ih.cons x)

/-! ### Adding the vertices to the fresh graph yields the zero matrix -/

theorem cellAt_zeroM (n i j : ℕ) : cellAt (zeroM n) i j = 0 := by
  unfold cellAt zeroM
  by_cases hi : i < n
  · have h1 : (List.replicate n (List.replicate n (0 : ℤ))).getD i [] =
        List.replicate n 0 := by
      rw [List.getD_eq_getElem _ _ (by rw [List.length_replicate]; exact hi),
        List.getElem_replicate]
    rw [h1]
    exact getD_replicate_zero n j
  · have h1 : (List.replicate n (List.replicate n (0 : ℤ))).getD i [] = [] :=
      List.getD_eq_default _ _ (by rw [List.length_replicate]; omega)
    rw [h1]
    rfl

theorem squareMatrix_zeroM (vs : List Vertex) :
    squareMatrix ⟨vs, zeroM vs.length⟩ := by
  constructor
  · rw [zeroM]
    exact List.length_replicate _ _
  · intro row hrow
    rw [zeroM] at hrow
    rw [List.eq_of_mem_replicate hrow]
    exact List.length_replicate _ _

theorem zeroM_ne_nilnil {n : ℕ} (hn : 0 < n) : zeroM n ≠ [[]] := by
  intro hc
  obtain ⟨m, rfl⟩ := Nat.exists_eq_succ_of_ne_zero (by omega : n ≠ 0)
  rw [zeroM, List.replicate_succ, List.replicate_succ] at hc
  injection hc with h1 h2
  cases h1

theorem headD_replicate {α : Type} (m : ℕ) (a : α) (d : α) :
    (List.replicate (m + 1) a).headD d = a := by
  rw [List.replicate_succ, List.headD_cons]

theorem addVertex_zeroM {ws : List Vertex} {v : Vertex} (hv : v ∉ ws)
    (hne : ws ≠ []) :
    addVertex ⟨ws, zeroM ws.length⟩ v =
      .ok ⟨ws ++ [v], zeroM (ws.length + 1)⟩ := by
  unfold addVertex
  rw [if_neg hv]
  have hlen : 0 < ws.length := List.length_pos.mpr hne
  rw [if_neg (zeroM_ne_nilnil hlen)]
  obtain ⟨m, hm⟩ := Nat.exists_eq_succ_of_ne_zero (by omega : ws.length ≠ 0)
  have hmap : List.map (fun row => row ++ [0]) (zeroM ws.length) =
      List.replicate ws.length (List.replicate (ws.length + 1) 0) := by
    rw [zeroM, List.map_replicate, ← List.replicate_succ']
  show Except.ok (⟨ws ++ [v],
      List.map (fun row => row ++ [0]) (zeroM ws.length) ++
        [List.replicate ((List.map (fun row => row ++ [0])
          (zeroM ws.length)).headD []).length 0]⟩ : Graph) =
    Except.ok (⟨ws ++ [v], zeroM (ws.length + 1)⟩ : Graph)
  rw [hmap]
  have hh : ((List.replicate ws.length
      (List.replicate (ws.length + 1) (0 : ℤ))).headD []) =
      List.replicate (ws.length + 1) 0 := by
    rw [hm]
    exact headD_replicate m _ []
  rw [hh, List.length_replicate, ← List.replicate_succ']
  rfl

theorem addVertices_zeroM : ∀ (vs ws : List Vertex), ws ≠ [] →
    (ws ++ vs).Nodup →
    addVertices ⟨ws, zeroM ws.length⟩ vs =
      .ok ⟨ws ++ vs, zeroM (ws ++ vs).length⟩ := by
  intro vs
  induction vs with
  | nil =>
    intro ws hne hnd
    rw [addVertices, List.append_nil]
  | cons v rest ih =>
    intro ws hne hnd
    have hv : v ∉ ws := by
      rcases List.nodup_append.mp hnd with ⟨h1, h2, h3⟩
      intro hc
      exact h3 hc (List.mem_cons_self v rest)
    rw [addVertices, addVertex_zeroM hv hne, except_bind_ok]
    have hlen : ws.length + 1 = (ws ++ [v]).length := by
      rw [List.length_append, List.length_singleton]
    rw [hlen, ih (ws ++ [v]) (List.append_ne_nil_of_right_ne_nil ws
      (by intro hc; cases hc)) (by rw [List.append_assoc]; exact hnd),
      List.append_assoc]
    rfl

theorem addVertices_empty_ok {vs : List Vertex} (hne : vs ≠ [])
    (hnd : vs.Nodup) :
    addVertices emptyGraph vs = .ok ⟨vs, zeroM vs.length⟩ := by
  obtain ⟨v, rest, rfl⟩ := List.exists_cons_of_ne_nil hne
  have h1 : addVertex emptyGraph v = .ok ⟨[v], zeroM 1⟩ := by
    unfold addVertex emptyGraph
    rw [if_neg (List.not_mem_nil v)]
    rfl
  rw [addVertices, h1, except_bind_ok]
  have h2 : (1 : ℕ) = ([v] : List Vertex).length := rfl
  rw [h2, addVertices_zeroM rest [v] (by intro hc; cases hc)
    (by rw [List.singleton_append]; exact hnd)]
  rfl

/-! ### The all-zero graph has no cycles -/

theorem getConnectedVertices_zero {G : Graph}
    (h : ∀ i j, cellAt G.matrix i j = 0) (v : Vertex)
    (avoid : List Vertex) : getConnectedVertices G v avoid = [] := by
  unfold getConnectedVertices
  rw [List.filterMap_eq_nil_iff]
  rintro ⟨j, x⟩ hq
  obtain ⟨hj, hx⟩ := List.mem_enum hq
  have hj2 : j < (G.matrix.getD (idxOf v G.vertices) []).length := hj
  have hx2 : x = (G.matrix.getD (idxOf v G.vertices) [])[j] := hx
  have hx0 : x = 0 := by
    have hc := h (idxOf v G.vertices) j
    unfold cellAt at hc
    rw [List.getD_eq_getElem _ _ hj2] at hc
    rw [hx2, hc]
  rw [if_neg]
  intro hcon
  exact absurd hx0 hcon.1

theorem hasCycles_zero {G : Graph}
    (h : ∀ i j, cellAt G.matrix i j = 0) : hasCycles G = false := by
  unfold hasCycles
  by_cases h0 : G.vertices.length = 0
  · rw [if_pos h0]
  · rw [if_neg h0]
    have hdiag : ¬ ((List.range G.vertices.length).any
        (fun i => decide (cellAt G.matrix i i ≠ 0)) = true) := by
      rw [Bool.not_eq_true, List.any_eq_false]
      intro i hi
      simp [h i i]
    rw [if_neg hdiag, List.any_eq_false]
    intro v hv
    have hfuel : 2 * G.vertices.length + 4 =
        (2 * G.vertices.length + 3) + 1 := rfl
    rw [hfuel]
    simp only [hasCyclesAux, List.dropLast_nil, List.not_mem_nil,
      if_false, List.getLast?_nil]
    rw [getConnectedVertices_zero h]
    simp


/-! ### The coalescing loop keeps the written cells pairwise distinct -/

theorem nodup_append_disjoint {α : Type} {l r : List α}
    (h : (l ++ r).Nodup) {a : α} (hl : a ∈ l) (hr : a ∈ r) : False :=
  (List.nodup_append.mp h).2.2 hl hr

theorem mem_once_of_flatMap_nodup {α β : Type} [DecidableEq α]
    {F : α → List β} {d : α} {c : β} (hc : c ∈ F d) :
    ∀ {l : List α}, (l.flatMap F).Nodup → d ∈ l →
    ∃ a1 a2, l = a1 ++ d :: a2 ∧ d ∉ a1 ∧ d ∉ a2 := by
  intro l
  induction l with
  | nil =>
    intro _ h
    cases h
  | cons x xs ih =>
    intro hnd hd
    rw [List.flatMap_cons, List.nodup_append] at hnd
    obtain ⟨h1, h2, h3⟩ := hnd
    by_cases hx : x = d
    · subst hx
      refine ⟨[], xs, rfl, List.not_mem_nil x, ?_⟩
      intro hmem
      exact h3 hc (List.mem_flatMap.mpr ⟨x, hmem, hc⟩)
    · rcases List.mem_cons.mp hd with rfl | hd
      · exact absurd rfl hx
      · obtain ⟨a1, a2, heq, hna1, hna2⟩ := ih h2 hd
        refine ⟨x :: a1, a2, by rw [heq]; rfl, ?_, hna2⟩
        intro hmem
        rcases List.mem_cons.mp hmem with h | h
        · exact hx h.symm
        · exact hna1 h

theorem coalesce_merge_facts {vs : List Vertex} {acc : List DEdge}
    {v u : Vertex} {w : ℤ} {rest : List (Vertex × Vertex × ℤ)}
    (hd : (⟨u, v, w, true⟩ : DEdge) ∈ acc)
    (h1 : (acc.flatMap (cellsOfD vs) ++
      ((v, u, w) :: rest).map (pairOfT vs)).Nodup) :
    ∃ a1 a2, acc = a1 ++ ⟨u, v, w, true⟩ :: a2 ∧
      (⟨u, v, w, true⟩ : DEdge) ∉ a1 ∧ (⟨u, v, w, true⟩ : DEdge) ∉ a2 ∧
      (acc.map fun t =>
        if t = ⟨u, v, w, true⟩ then ⟨u, v, w, false⟩ else t) =
        a1 ++ ⟨u, v, w, false⟩ :: a2 ∧
      ((a1 ++ ⟨u, v, w, false⟩ :: a2).flatMap (cellsOfD vs) ++
        rest.map (pairOfT vs)).Nodup := by
  have hFd : cellsOfD vs ⟨u, v, w, true⟩ = [(idxOf u vs, idxOf v vs)] := rfl
  have hFd' : cellsOfD vs ⟨u, v, w, false⟩ =
      [(idxOf u vs, idxOf v vs), (idxOf v vs, idxOf u vs)] := rfl
  have hP : pairOfT vs (v, u, w) = (idxOf v vs, idxOf u vs) := rfl
  have hcell : (idxOf u vs, idxOf v vs) ∈ cellsOfD vs ⟨u, v, w, true⟩ := by
    rw [hFd]
    exact List.mem_cons_self _ _
  have hfnd : (acc.flatMap (cellsOfD vs)).Nodup :=
    (List.nodup_append.mp h1).1
  obtain ⟨a1, a2, heq, hna1, hna2⟩ :=
    mem_once_of_flatMap_nodup hcell hfnd hd
  have hfix : ∀ (l : List DEdge), (⟨u, v, w, true⟩ : DEdge) ∉ l →
      (l.map fun t =>
        if t = ⟨u, v, w, true⟩ then ⟨u, v, w, false⟩ else t) = l := by
    intro l hl
    have hp : ∀ t ∈ l, (if t = (⟨u, v, w, true⟩ : DEdge) then
        (⟨u, v, w, false⟩ : DEdge) else t) = id t := by
      intro t ht
      refine if_neg fun hc => hl ?_
      rw [← hc]
      exact ht
    rw [List.map_congr_left hp, List.map_id]
  refine ⟨a1, a2, heq, hna1, hna2, ?_, ?_⟩
  · rw [heq, List.map_append, List.map_cons, if_pos rfl, hfix a1 hna1,
      hfix a2 hna2]
  · rw [heq] at h1
    rw [List.flatMap_append, List.flatMap_cons, List.map_cons, hFd, hP] at h1
    rw [List.flatMap_append, List.flatMap_cons, hFd']
    refine List.Perm.nodup ?_ h1
    simp only [List.append_assoc, List.singleton_append, List.cons_append]
    exact List.Perm.append_left _ (List.Perm.cons _ List.perm_middle)

theorem coalesce_invariant {vs : List Vertex} :
    ∀ (S : List (Vertex × Vertex × ℤ)) (acc : List DEdge),
    (acc.flatMap (cellsOfD vs) ++ S.map (pairOfT vs)).Nodup →
    (∀ e ∈ acc, e.v ∈ vs ∧ e.u ∈ vs) →
    (∀ t ∈ S, t.1 ∈ vs ∧ t.2.1 ∈ vs) →
    ((coalesce S acc).flatMap (cellsOfD vs)).Nodup ∧
    (∀ e ∈ coalesce S acc, e.v ∈ vs ∧ e.u ∈ vs) := by
  intro S
  induction S with
  | nil =>
    intro acc h1 h2 h3
    rw [coalesce]
    rw [List.map_nil, List.append_nil] at h1
    exact ⟨h1, h2⟩
  | cons t rest ih =>
    rcases t with ⟨v, u, w⟩
    intro acc h1 h2 h3
    rw [coalesce]
    by_cases hd : (⟨u, v, w, true⟩ : DEdge) ∈ acc
    · rw [if_pos hd]
      obtain ⟨a1, a2, heq, hna1, hna2, hmap, hnew⟩ :=
        coalesce_merge_facts hd h1
      rw [hmap]
      refine ih _ hnew ?_ fun t ht => h3 t (List.mem_cons_of_mem _ ht)
      intro e he
      rcases List.mem_append.mp he with he | he
      · exact h2 e (by rw [heq]; exact List.mem_append_left _ he)
      · rcases List.mem_cons.mp he with rfl | he
        · exact h2 ⟨u, v, w, true⟩ hd
        · refine h2 e ?_
          rw [heq]
          exact List.mem_append_right _ (List.mem_cons_of_mem _ he)
    · rw [if_neg hd]
      refine ih _ ?_ ?_ fun t ht => h3 t (List.mem_cons_of_mem _ ht)
      · have hFd : cellsOfD vs ⟨v, u, w, true⟩ =
            [(idxOf v vs, idxOf u vs)] := rfl
        have hP : pairOfT vs (v, u, w) = (idxOf v vs, idxOf u vs) := rfl
        rw [List.flatMap_append, List.flatMap_cons, List.flatMap_nil,
          List.append_nil, hFd, List.append_assoc, List.singleton_append]
        rw [List.map_cons, hP] at h1
        exact h1
      · intro e he
        rcases List.mem_append.mp he with he | he
        · exact h2 e he
        · rcases List.mem_cons.mp he with rfl | he
          · exact h3 (v, u, w) (List.mem_cons_self _ _)
          · cases he

theorem coalesce_dirLoop {vs : List Vertex} :
    ∀ (S : List (Vertex × Vertex × ℤ)) (acc : List DEdge),
    (acc.flatMap (cellsOfD vs) ++ S.map (pairOfT vs)).Nodup →
    (∀ e ∈ acc, e.dir = true → e.v ≠ e.u → (e.u, e.v, e.w) ∈ S) →
    (∀ t ∈ S, t.1 ≠ t.2.1 →
      ((t.2.1, t.1, t.2.2) ∈ S ∨ (⟨t.2.1, t.1, t.2.2, true⟩ : DEdge) ∈ acc)) →
    ∀ e ∈ coalesce S acc, e.dir = true → e.v = e.u := by
  intro S
  induction S with
  | nil =>
    intro acc h1 h4 h5 e he hdir
    rw [coalesce] at he
    by_contra hvu
    exact absurd (h4 e he hdir hvu) (List.not_mem_nil _)
  | cons t rest ih =>
    rcases t with ⟨v, u, w⟩
    intro acc h1 h4 h5
    rw [coalesce]
    by_cases hd : (⟨u, v, w, true⟩ : DEdge) ∈ acc
    · rw [if_pos hd]
      obtain ⟨a1, a2, heq, hna1, hna2, hmap, hnew⟩ :=
        coalesce_merge_facts hd h1
      rw [hmap]
      refine ih _ hnew ?_ ?_
      · intro e he hdir hvu
        have hemem : e ∈ acc ∧ e ≠ (⟨u, v, w, true⟩ : DEdge) := by
          rcases List.mem_append.mp he with he | he
          · exact ⟨by rw [heq]; exact List.mem_append_left _ he,
              fun hc => hna1 (hc ▸ he)⟩
          · rcases List.mem_cons.mp he with rfl | he
            · cases hdir
            · exact ⟨by
                rw [heq]
                exact List.mem_append_right _ (List.mem_cons_of_mem _ he),
                fun hc => hna2 (hc ▸ he)⟩
        have hold := h4 e hemem.1 hdir hvu
        rcases List.mem_cons.mp hold with hre | hre
        · exfalso
          refine hemem.2 ?_
          rcases e with ⟨ev, eu, ew, edir⟩
          simp only [Prod.mk.injEq] at hre
          obtain ⟨h6, h7, h8⟩ := hre
          simp only at h6 h7 h8 hdir
          rw [show ev = u from h7, show eu = v from h6,
            show ew = w from h8, show edir = true from hdir]
        · exact hre
      · intro r hr hne
        have hold := h5 r (List.mem_cons_of_mem _ hr) hne
        have hrP : pairOfT vs r = (idxOf r.1 vs, idxOf r.2.1 vs) := rfl
        rcases hold with hro | hra
        · rcases List.mem_cons.mp hro with hre | hre
          · exfalso
            have hr1 : r.2.1 = v := congrArg Prod.fst hre
            have hr2 : r.1 = u := congrArg (fun z => z.2.1) hre
            have hcellacc : (idxOf u vs, idxOf v vs) ∈
                acc.flatMap (cellsOfD vs) := by
              refine List.mem_flatMap.mpr ⟨⟨u, v, w, true⟩, hd, ?_⟩
              rw [show cellsOfD vs ⟨u, v, w, true⟩ =
                [(idxOf u vs, idxOf v vs)] from rfl]
              exact List.mem_cons_self _ _
            have hcellS : (idxOf u vs, idxOf v vs) ∈
                ((v, u, w) :: rest).map (pairOfT vs) := by
              refine List.mem_cons_of_mem _ ?_
              refine List.mem_map.mpr ⟨r, hr, ?_⟩
              rw [hrP, hr1, hr2]
            exact nodup_append_disjoint h1 hcellacc hcellS
          · exact Or.inl hre
        · by_cases hda : (⟨r.2.1, r.1, r.2.2, true⟩ : DEdge) =
              ⟨u, v, w, true⟩
          · exfalso
            have hr1 : r.2.1 = u := congrArg DEdge.v hda
            have hr2 : r.1 = v := congrArg DEdge.u hda
            have hr3 : r.2.2 = w := congrArg DEdge.w hda
            have hrmap : pairOfT vs r = pairOfT vs (v, u, w) := by
              rw [hrP, hr1, hr2]
              rfl
            have hnd2 : (((v, u, w) :: rest).map (pairOfT vs)).Nodup :=
              (List.nodup_append.mp h1).2.1
            rw [List.map_cons, List.nodup_cons] at hnd2
            exact hnd2.1 (List.mem_map.mpr ⟨r, hr, hrmap⟩)
          · refine Or.inr ?_
            have hmem : (⟨r.2.1, r.1, r.2.2, true⟩ : DEdge) ∈
                a1 ++ (⟨u, v, w, true⟩ : DEdge) :: a2 := by
              rw [← heq]
              exact hra
            rcases List.mem_append.mp hmem with hm | hm
            · exact List.mem_append_left _ hm
            · rcases List.mem_cons.mp hm with hm | hm
              · exact absurd hm hda
              · exact List.mem_append_right _ (List.mem_cons_of_mem _ hm)
    · rw [if_neg hd]
      refine ih _ ?_ ?_ ?_
      · have hFd : cellsOfD vs ⟨v, u, w, true⟩ =
            [(idxOf v vs, idxOf u vs)] := rfl
        have hP : pairOfT vs (v, u, w) = (idxOf v vs, idxOf u vs) := rfl
        rw [List.flatMap_append, List.flatMap_cons, List.flatMap_nil,
          List.append_nil, hFd, List.append_assoc, List.singleton_append]
        rw [List.map_cons, hP] at h1
        exact h1
      · intro e he hdir hvu
        rcases List.mem_append.mp he with he | he
        · have hold := h4 e he hdir hvu
          rcases List.mem_cons.mp hold with hre | hre
          · exfalso
            refine hd ?_
            rcases e with ⟨ev, eu, ew, edir⟩
            simp only [Prod.mk.injEq] at hre
            obtain ⟨h6, h7, h8⟩ := hre
            simp only at h6 h7 h8 hdir
            rw [show u = ev from h7.symm, show v = eu from h6.symm,
              show w = ew from h8.symm]
            rw [show edir = true from hdir] at he
            exact he
          · exact hre
        · rcases List.mem_cons.mp he with rfl | he
          · simp only at hvu
            have hold := h5 (v, u, w) (List.mem_cons_self _ _) hvu
            rcases hold with hro | hra
            · rcases List.mem_cons.mp hro with hre | hre
              · exfalso
                exact hvu (congrArg (fun z => z.2.1) hre)
              · exact hre
            · exact absurd hra hd
          · cases he
      · intro r hr hne
        have hold := h5 r (List.mem_cons_of_mem _ hr) hne
        rcases hold with hro | hra
        · rcases List.mem_cons.mp hro with hre | hre
          · refine Or.inr ?_
            have h6 : r.2.1 = v := congrArg Prod.fst hre
            have h7 : r.1 = u := congrArg (fun z => z.2.1) hre
            have h8 : r.2.2 = w := congrArg (fun z => z.2.2) hre
            rw [h6, h7, h8]
            exact List.mem_append_right _ (List.mem_cons_self _ _)
          · exact Or.inl hre
        · exact Or.inr (List.mem_append_left _ hra)


/-! ### The greedy loop returns a cycle-free graph on the same vertices -/

theorem buildTree_ok {vs : List Vertex} :
    ∀ (rem : List DEdge) (T : Graph), T.vertices = vs → squareMatrix T →
    hasCycles T = false →
    (∀ e ∈ rem, e.v ∈ vs ∧ e.u ∈ vs) →
    (∀ e ∈ rem, ∀ c ∈ cellsOfD vs e, cellAt T.matrix c.1 c.2 = 0) →
    (rem.flatMap (cellsOfD vs)).Nodup →
    ∃ T', buildTree T rem = .ok T' ∧ T'.vertices = vs ∧
      hasCycles T' = false := by
  intro rem
  induction rem with
  | nil =>
    intro T hTv hsq hcy hend hz hndF
    exact ⟨T, by rw [buildTree], hTv, hcy⟩
  | cons e rest ih =>
    rcases e with ⟨v, u, w, dir⟩
    intro T hTv hsq hcy hend hz hndF
    obtain ⟨Tv, TM⟩ := T
    have hTv2 : Tv = vs := hTv
    subst hTv2
    have hv : v ∈ Tv := (hend _ (List.mem_cons_self _ _)).1
    have hu : u ∈ Tv := (hend _ (List.mem_cons_self _ _)).2
    have hnv : ¬ v ∉ Tv := fun hc => hc hv
    have hnu : ¬ u ∉ Tv := fun hc => hc hu
    have hend1 : ∀ e ∈ rest, e.v ∈ Tv ∧ e.u ∈ Tv :=
      fun e he => hend e (List.mem_cons_of_mem _ he)
    cases dir with
    | false =>
      have hFe : cellsOfD Tv ⟨v, u, w, false⟩ =
          [(idxOf v Tv, idxOf u Tv), (idxOf u Tv, idxOf v Tv)] := rfl
      have hnd3 : ([(idxOf v Tv, idxOf u Tv), (idxOf u Tv, idxOf v Tv)] ++
          rest.flatMap (cellsOfD Tv)).Nodup := by
        rw [← hFe, ← List.flatMap_cons]
        exact hndF
      have hndR : (rest.flatMap (cellsOfD Tv)).Nodup :=
        List.Nodup.of_append_right hnd3
      have hne0 : ((idxOf v Tv, idxOf u Tv) : ℕ × ℕ) ≠
          (idxOf u Tv, idxOf v Tv) := by
        have hh := (List.nodup_append.mp hnd3).1
        rw [List.nodup_cons] at hh
        intro hc
        exact hh.1 (by rw [hc]; exact List.mem_cons_self _ _)
      have hpq : idxOf v Tv ≠ idxOf u Tv := by
        rcases pair_ne_or hne0 with h | h
        · exact h
        · exact fun hc => h (hc ▸ rfl)
      have hc1 : cellAt TM (idxOf v Tv) (idxOf u Tv) = 0 :=
        hz _ (List.mem_cons_self _ _) (idxOf v Tv, idxOf u Tv)
          (by rw [hFe]; exact List.mem_cons_self _ _)
      have hc2 : cellAt TM (idxOf u Tv) (idxOf v Tv) = 0 :=
        hz _ (List.mem_cons_self _ _) (idxOf u Tv, idxOf v Tv)
          (by rw [hFe]
              exact List.mem_cons_of_mem _ (List.mem_cons_self _ _))
      have hadd : addEdge (⟨Tv, TM⟩ : Graph) v u w false =
          .ok ⟨Tv, updCell (updCell TM (idxOf v Tv) (idxOf u Tv) w)
            (idxOf u Tv) (idxOf v Tv) w⟩ := by
        unfold addEdge setEdge
        rw [if_neg hnv, if_neg hnu]
        dsimp only
        rw [if_neg Bool.false_ne_true]
      have hsq1 : squareMatrix ⟨Tv, updCell (updCell TM (idxOf v Tv)
          (idxOf u Tv) w) (idxOf u Tv) (idxOf v Tv) w⟩ :=
        squareMatrix_updCell _ _ _ (squareMatrix_updCell _ _ _ hsq)
      have hz1 : ∀ e ∈ rest, ∀ c ∈ cellsOfD Tv e,
          cellAt (updCell (updCell TM (idxOf v Tv) (idxOf u Tv) w)
            (idxOf u Tv) (idxOf v Tv) w) c.1 c.2 = 0 := by
        intro e he c hc
        have hcmem : c ∈ rest.flatMap (cellsOfD Tv) :=
          List.mem_flatMap.mpr ⟨e, he, hc⟩
        have hne1 : c ≠ (idxOf v Tv, idxOf u Tv) := by
          intro hc1
          exact nodup_append_disjoint hnd3 (List.mem_cons_self _ _)
            (hc1 ▸ hcmem)
        have hne2 : c ≠ (idxOf u Tv, idxOf v Tv) := by
          intro hc1
          exact nodup_append_disjoint hnd3
            (List.mem_cons_of_mem _ (List.mem_cons_self _ _)) (hc1 ▸ hcmem)
        have hx1 : idxOf u Tv ≠ c.1 ∨ idxOf v Tv ≠ c.2 :=
          pair_ne_or (Ne.symm hne2)
        have hx2 : idxOf v Tv ≠ c.1 ∨ idxOf u Tv ≠ c.2 :=
          pair_ne_or (Ne.symm hne1)
        rw [cellAt_updCell_ne hx1, cellAt_updCell_ne hx2]
        exact hz e (List.mem_cons_of_mem _ he) c hc
      cases hcy1 : hasCycles ⟨Tv, updCell (updCell TM (idxOf v Tv)
          (idxOf u Tv) w) (idxOf u Tv) (idxOf v Tv) w⟩ with
      | false =>
        have hstep : buildTree ⟨Tv, TM⟩ (⟨v, u, w, false⟩ :: rest) =
            if isConnected ⟨Tv, updCell (updCell TM (idxOf v Tv)
                (idxOf u Tv) w) (idxOf u Tv) (idxOf v Tv) w⟩ = true then
              Except.ok ⟨Tv, updCell (updCell TM (idxOf v Tv)
                (idxOf u Tv) w) (idxOf u Tv) (idxOf v Tv) w⟩
            else buildTree ⟨Tv, updCell (updCell TM (idxOf v Tv)
              (idxOf u Tv) w) (idxOf u Tv) (idxOf v Tv) w⟩ rest := by
          rw [buildTree, hadd, except_bind_ok, hcy1,
            if_neg Bool.false_ne_true, except_pure_eq_ok, except_bind_ok]
        by_cases hco : isConnected ⟨Tv, updCell (updCell TM (idxOf v Tv)
            (idxOf u Tv) w) (idxOf u Tv) (idxOf v Tv) w⟩ = true
        · exact ⟨_, by rw [hstep, if_pos hco], rfl, hcy1⟩
        · obtain ⟨T2, hbt, hTv2, hcy2⟩ := ih _ rfl hsq1 hcy1 hend1 hz1 hndR
          exact ⟨T2, by rw [hstep, if_neg hco]; exact hbt, hTv2, hcy2⟩
      | true =>
        have hres : updCell (updCell (updCell (updCell TM (idxOf v Tv)
            (idxOf u Tv) w) (idxOf u Tv) (idxOf v Tv) w) (idxOf v Tv)
            (idxOf u Tv) 0) (idxOf u Tv) (idxOf v Tv) 0 = TM := by
          rw [updCell_comm (Ne.symm hpq), updCell_updCell_same,
            updCell_updCell_same, updCell_zero_self hc1,
            updCell_zero_self hc2]
        have hrem : removeEdge (⟨Tv, updCell (updCell TM (idxOf v Tv)
            (idxOf u Tv) w) (idxOf u Tv) (idxOf v Tv) w⟩ : Graph) v u false =
            .ok (⟨Tv, TM⟩ : Graph) := by
          unfold removeEdge setEdge
          rw [if_neg hnv, if_neg hnu]
          dsimp only
          rw [if_neg Bool.false_ne_true, hres]
        have hstep : buildTree ⟨Tv, TM⟩ (⟨v, u, w, false⟩ :: rest) =
            if isConnected (⟨Tv, TM⟩ : Graph) = true then
              Except.ok (⟨Tv, TM⟩ : Graph)
            else buildTree ⟨Tv, TM⟩ rest := by
          rw [buildTree, hadd, except_bind_ok, hcy1, if_pos rfl, hrem,
            except_bind_ok]
        have hz2 : ∀ e ∈ rest, ∀ c ∈ cellsOfD Tv e,
            cellAt TM c.1 c.2 = 0 :=
          fun e he => hz e (List.mem_cons_of_mem _ he)
        by_cases hco : isConnected (⟨Tv, TM⟩ : Graph) = true
        · exact ⟨_, by rw [hstep, if_pos hco], rfl, hcy⟩
        · obtain ⟨T2, hbt, hTv2, hcy2⟩ := ih _ rfl hsq hcy hend1 hz2 hndR
          exact ⟨T2, by rw [hstep, if_neg hco]; exact hbt, hTv2, hcy2⟩
    | true =>
      have hFe : cellsOfD Tv ⟨v, u, w, true⟩ =
          [(idxOf v Tv, idxOf u Tv)] := rfl
      have hnd3 : ([(idxOf v Tv, idxOf u Tv)] ++
          rest.flatMap (cellsOfD Tv)).Nodup := by
        rw [← hFe, ← List.flatMap_cons]
        exact hndF
      have hndR : (rest.flatMap (cellsOfD Tv)).Nodup :=
        List.Nodup.of_append_right hnd3
      have hc1 : cellAt TM (idxOf v Tv) (idxOf u Tv) = 0 :=
        hz _ (List.mem_cons_self _ _) (idxOf v Tv, idxOf u Tv)
          (by rw [hFe]; exact List.mem_cons_self _ _)
      have hadd : addEdge (⟨Tv, TM⟩ : Graph) v u w true =
          .ok ⟨Tv, updCell TM (idxOf v Tv) (idxOf u Tv) w⟩ := by
        unfold addEdge setEdge
        rw [if_neg hnv, if_neg hnu]
        dsimp only
        rw [if_pos rfl]
      have hsq1 : squareMatrix ⟨Tv, updCell TM (idxOf v Tv)
          (idxOf u Tv) w⟩ := squareMatrix_updCell _ _ _ hsq
      have hz1 : ∀ e ∈ rest, ∀ c ∈ cellsOfD Tv e,
          cellAt (updCell TM (idxOf v Tv) (idxOf u Tv) w) c.1 c.2 = 0 := by
        intro e he c hc
        have hcmem : c ∈ rest.flatMap (cellsOfD Tv) :=
          List.mem_flatMap.mpr ⟨e, he, hc⟩
        have hne1 : c ≠ (idxOf v Tv, idxOf u Tv) := by
          intro hc1
          exact nodup_append_disjoint hnd3 (List.mem_cons_self _ _)
            (hc1 ▸ hcmem)
        have hx2 : idxOf v Tv ≠ c.1 ∨ idxOf u Tv ≠ c.2 :=
          pair_ne_or (Ne.symm hne1)
        rw [cellAt_updCell_ne hx2]
        exact hz e (List.mem_cons_of_mem _ he) c hc
      cases hcy1 : hasCycles ⟨Tv, updCell TM (idxOf v Tv)
          (idxOf u Tv) w⟩ with
      | false =>
        have hstep : buildTree ⟨Tv, TM⟩ (⟨v, u, w, true⟩ :: rest) =
            if isConnected ⟨Tv, updCell TM (idxOf v Tv)
                (idxOf u Tv) w⟩ = true then
              Except.ok ⟨Tv, updCell TM (idxOf v Tv) (idxOf u Tv) w⟩
            else buildTree ⟨Tv, updCell TM (idxOf v Tv)
              (idxOf u Tv) w⟩ rest := by
          rw [buildTree, hadd, except_bind_ok, hcy1,
            if_neg Bool.false_ne_true, except_pure_eq_ok, except_bind_ok]
        by_cases hco : isConnected ⟨Tv, updCell TM (idxOf v Tv)
            (idxOf u Tv) w⟩ = true
        · exact ⟨_, by rw [hstep, if_pos hco], rfl, hcy1⟩
        · obtain ⟨T2, hbt, hTv2, hcy2⟩ := ih _ rfl hsq1 hcy1 hend1 hz1 hndR
          exact ⟨T2, by rw [hstep, if_neg hco]; exact hbt, hTv2, hcy2⟩
      | true =>
        have hres : updCell (updCell TM (idxOf v Tv) (idxOf u Tv) w)
            (idxOf v Tv) (idxOf u Tv) 0 = TM := by
          rw [updCell_updCell_same, updCell_zero_self hc1]
        have hrem : removeEdge (⟨Tv, updCell TM (idxOf v Tv)
            (idxOf u Tv) w⟩ : Graph) v u true = .ok (⟨Tv, TM⟩ : Graph) := by
          unfold removeEdge setEdge
          rw [if_neg hnv, if_neg hnu]
          dsimp only
          rw [if_pos rfl, hres]
        have hstep : buildTree ⟨Tv, TM⟩ (⟨v, u, w, true⟩ :: rest) =
            if isConnected (⟨Tv, TM⟩ : Graph) = true then
              Except.ok (⟨Tv, TM⟩ : Graph)
            else buildTree ⟨Tv, TM⟩ rest := by
          rw [buildTree, hadd, except_bind_ok, hcy1, if_pos rfl, hrem,
            except_bind_ok]
        have hz2 : ∀ e ∈ rest, ∀ c ∈ cellsOfD Tv e,
            cellAt TM c.1 c.2 = 0 :=
          fun e he => hz e (List.mem_cons_of_mem _ he)
        by_cases hco : isConnected (⟨Tv, TM⟩ : Graph) = true
        · exact ⟨_, by rw [hstep, if_pos hco], rfl, hcy⟩
        · obtain ⟨T2, hbt, hTv2, hcy2⟩ := ih _ rfl hsq hcy hend1 hz2 hndR
          exact ⟨T2, by rw [hstep, if_neg hco]; exact hbt, hTv2, hcy2⟩


/-! ## Claim C1 — Kruskal on a connected input

The vertex-list and `is_tree` conjuncts hold for every connected input, but
the minimality conjunct fails: the source accepts directed inputs (its own
`is_connected` follows directed edges), and on the connected directed graph
`cx3` the greedy loop keeps the first acceptable edge R→A(10) even though
the spanning tree R→B(9), B→A(2) is strictly cheaper. -/

/-- C1 counterexample: `cx3` is a well-formed connected input, `kruskal`
returns the tree R→A(10), R→B(9), A→B(1) of total weight 20, yet `cx3Alt`
is a spanning tree of `cx3` (by the library's own `is_tree`/`is_connected`
vocabulary) of total weight 11 < 20 — so the output's total weight is not
minimal among spanning trees of the input. -/
theorem claim_C1_counterexample :
    squareMatrix cx3 ∧ cx3.vertices.Nodup ∧ isConnected cx3 = true ∧
    kruskal cx3 = .ok ⟨[vR, vA, vB], [[0, 10, 9], [0, 0, 1], [0, 0, 0]]⟩ ∧
    totalWeight ⟨[vR, vA, vB], [[0, 10, 9], [0, 0, 1], [0, 0, 0]]⟩ = 20 ∧
    isSpanningTreeOfB cx3Alt cx3 = true ∧ totalWeight cx3Alt = 11 :=
  ⟨by decide, by decide, by decide, by decide, by decide, by decide,
   by decide⟩

/-- C1 as amended: for every well-formed connected input graph, `kruskal`
returns (without an exception) a graph with exactly the input's vertex list
and with `is_tree == true`; the original claim's minimal-total-weight
conjunct is refuted by `claim_C1_counterexample`. -/
theorem claim_C1_kruskal (G : Graph) (hsq : squareMatrix G)
    (hnd : G.vertices.Nodup) (hconn : isConnected G = true) :
    ∃ T, kruskal G = .ok T ∧ T.vertices = G.vertices ∧
      isTree T = true := by
  have hne : G.vertices ≠ [] := by
    intro hc
    rw [isConnected, hc] at hconn
    rw [List.any_nil] at hconn
    cases hconn
  have hperm := stableSortBy_perm
    (fun a b => decide (a.2.2 < b.2.2)) (edgeList G)
  have hmemE : ∀ t ∈ edgeList G, t.1 ∈ G.vertices ∧
      t.2.1 ∈ G.vertices := by
    intro t ht
    obtain ⟨i, j, hi, hj, hw, rfl⟩ := (mem_edgeList_iff hsq).mp ht
    constructor
    · show G.vertices.getD i default ∈ G.vertices
      rw [List.getD_eq_getElem _ _ hi]
      exact List.getElem_mem hi
    · show G.vertices.getD j default ∈ G.vertices
      rw [List.getD_eq_getElem _ _ hj]
      exact List.getElem_mem hj
  have hmemS : ∀ t ∈ stableSortBy (fun a b => decide (a.2.2 < b.2.2))
      (edgeList G), t.1 ∈ G.vertices ∧ t.2.1 ∈ G.vertices :=
    fun t ht => hmemE t (hperm.mem_iff.mp ht)
  have hndS : ((stableSortBy (fun a b => decide (a.2.2 < b.2.2))
      (edgeList G)).map (pairOfT G.vertices)).Nodup :=
    ((hperm.map (pairOfT G.vertices)).nodup_iff).mpr
      (edgeList_pair_nodup hsq hnd)
  obtain ⟨hndD, hmemD⟩ := coalesce_invariant
    (stableSortBy (fun a b => decide (a.2.2 < b.2.2)) (edgeList G)) []
    (by rw [List.flatMap_nil, List.nil_append]; exact hndS)
    (fun e he => absurd he (List.not_mem_nil e)) hmemS
  obtain ⟨T, hbt, hTv, hTcy⟩ := buildTree_ok
    (coalesce (stableSortBy (fun a b => decide (a.2.2 < b.2.2))
      (edgeList G)) []) ⟨G.vertices, zeroM G.vertices.length⟩ rfl
    (squareMatrix_zeroM G.vertices)
    (hasCycles_zero fun i j => cellAt_zeroM _ i j)
    hmemD
    (fun e he c hc => cellAt_zeroM _ c.1 c.2)
    hndD
  refine ⟨T, ?_, hTv, ?_⟩
  · rw [kruskal]
    rw [addVertices_empty_ok hne hnd, except_bind_ok]
    exact hbt
  · rw [isTree, hTcy]
    rfl

/-- C1 witness: the amended claim applied to the spec's concrete connected
scenario graph. -/
theorem claim_C1_witness :
    squareMatrix exGraph ∧ exGraph.vertices.Nodup ∧
    isConnected exGraph = true ∧
    ∃ T, kruskal exGraph = .ok T ∧ T.vertices = exGraph.vertices ∧
      isTree T = true :=
  ⟨by decide, by decide, by decide,
   claim_C1_kruskal exGraph (by decide) (by decide) (by decide)⟩


/-! ## Claim C10 — Kruskal preserves matrix symmetry

On a symmetric input every enumerated triple has its exact reverse in the
edge list, so the coalescing loop leaves only undirected entries and
directed self-loops; adding or removing such an entry writes both symmetric
cells (or a diagonal cell), so the matrix stays symmetric throughout the
greedy loop. -/

theorem except_bind_error {α β : Type} (e : GraphError)
    (f : α → Except GraphError β) :
    ((Except.error e : Except GraphError α) >>= f) = .error e := rfl

theorem cellAt_col_oob {G : Graph} (hsq : squareMatrix G) {j : ℕ}
    (hj : G.vertices.length ≤ j) (i : ℕ) : cellAt G.matrix i j = 0 := by
  unfold cellAt
  by_cases hi : i < G.matrix.length
  · rw [List.getD_eq_default _ _ (by rw [rowlen_of_square hsq hi]; exact hj)]
  · have hX : G.matrix.getD i [] = [] :=
      List.getD_eq_default _ _ (by omega)
    rw [hX]
    rfl

theorem sym_of_bounded {G : Graph} (hsq : squareMatrix G)
    (h : ∀ i < G.vertices.length, ∀ j < G.vertices.length,
      cellAt G.matrix i j = cellAt G.matrix j i) :
    ∀ i j, cellAt G.matrix i j = cellAt G.matrix j i := by
  intro i j
  by_cases hi : i < G.vertices.length
  · by_cases hj : j < G.vertices.length
    · exact h i hi j hj
    · rw [cellAt_col_oob hsq (by omega) i,
        cellAt_row_oob (by rw [hsq.1]; omega) i]
  · by_cases hj : j < G.vertices.length
    · rw [cellAt_row_oob (by rw [hsq.1]; omega) j,
        cellAt_col_oob hsq (by omega) j]
    · rw [cellAt_row_oob (by rw [hsq.1]; omega) j,
        cellAt_row_oob (by rw [hsq.1]; omega) i]

theorem updCell_diag_sym {M : Matrix}
    (hsym : ∀ i j, cellAt M i j = cellAt M j i) (p : ℕ) (w : ℤ) :
    ∀ i j, cellAt (updCell M p p w) i j = cellAt (updCell M p p w) j i := by
  intro i j
  by_cases hij : i = p ∧ j = p
  · obtain ⟨rfl, rfl⟩ := hij
    rfl
  · have h0 : i ≠ p ∨ j ≠ p := by tauto
    have h1 : p ≠ i ∨ p ≠ j := by
      rcases h0 with h | h
      · exact Or.inl (Ne.symm h)
      · exact Or.inr (Ne.symm h)
    have h2 : p ≠ j ∨ p ≠ i := h1.symm
    rw [cellAt_updCell_ne h1, cellAt_updCell_ne h2, hsym]

theorem setEdge_sq {G G' : Graph} {v u : Vertex} {w : ℤ} {d : Bool}
    (hsq : squareMatrix G) (h : setEdge G v u w d = .ok G') :
    squareMatrix G' := by
  obtain ⟨hv, hu, hver, hmat⟩ := setEdge_ok h
  rcases G' with ⟨Gv, GM⟩
  have hver2 : Gv = G.vertices := hver
  have hmat2 : GM = _ := hmat
  subst hver2
  subst hmat2
  cases d with
  | true =>
    rw [if_pos rfl]
    exact squareMatrix_updCell _ _ _ hsq
  | false =>
    rw [if_neg Bool.false_ne_true]
    exact squareMatrix_updCell _ _ _ (squareMatrix_updCell _ _ _ hsq)

theorem setEdge_sym {G G' : Graph} {v u : Vertex} {w : ℤ} {d : Bool}
    (hsq : squareMatrix G)
    (hsym : ∀ i j, cellAt G.matrix i j = cellAt G.matrix j i)
    (hdl : d = true → v = u) (h : setEdge G v u w d = .ok G') :
    ∀ i j, cellAt G'.matrix i j = cellAt G'.matrix j i := by
  obtain ⟨hv, hu, hver, hmat⟩ := setEdge_ok h
  cases d with
  | true =>
    have hvu : v = u := hdl rfl
    subst hvu
    rw [if_pos rfl] at hmat
    intro i j
    rw [hmat]
    exact updCell_diag_sym hsym _ w i j
  | false =>
    by_cases hvu : v = u
    · subst hvu
      rw [if_neg Bool.false_ne_true] at hmat
      intro i j
      rw [hmat]
      exact updCell_diag_sym (updCell_diag_sym hsym _ w) _ w i j
    · obtain ⟨hcc1, hcc2, hco⟩ := setEdge_undirected_cells hsq hvu h
      intro i j
      by_cases h1 : i = idxOf v G.vertices ∧ j = idxOf u G.vertices
      · obtain ⟨rfl, rfl⟩ := h1
        rw [hcc1, hcc2]
      · by_cases h2 : i = idxOf u G.vertices ∧ j = idxOf v G.vertices
        · obtain ⟨rfl, rfl⟩ := h2
          rw [hcc1, hcc2]
        · rw [hco i j h1 h2, hco j i (fun hc => h2 ⟨hc.2, hc.1⟩)
            (fun hc => h1 ⟨hc.2, hc.1⟩), hsym i j]

theorem buildTree_sym : ∀ (rem : List DEdge) (T : Graph),
    squareMatrix T →
    (∀ i j, cellAt T.matrix i j = cellAt T.matrix j i) →
    (∀ e ∈ rem, e.dir = true → e.v = e.u) →
    ∀ (T' : Graph), buildTree T rem = .ok T' →
    ∀ i j, cellAt T'.matrix i j = cellAt T'.matrix j i := by
  intro rem
  induction rem with
  | nil =>
    intro T hsq hsym hdl T' hbt
    rw [buildTree] at hbt
    injection hbt with hbt
    rw [← hbt]
    exact hsym
  | cons e rest ih =>
    intro T hsq hsym hdl T' hbt
    rw [buildTree] at hbt
    cases ha : addEdge T e.v e.u e.w e.dir with
    | error err =>
      rw [ha, except_bind_error] at hbt
      cases hbt
    | ok t1 =>
      rw [ha, except_bind_ok] at hbt
      dsimp only at hbt
      have ha2 : setEdge T e.v e.u e.w e.dir = .ok t1 := ha
      have hsq1 : squareMatrix t1 := setEdge_sq hsq ha2
      have hsym1 := setEdge_sym hsq hsym
        (hdl e (List.mem_cons_self _ _)) ha2
      have hdl1 : ∀ e ∈ rest, e.dir = true → e.v = e.u :=
        fun e he => hdl e (List.mem_cons_of_mem _ he)
      cases hcy1 : hasCycles t1 with
      | false =>
        rw [hcy1, if_neg Bool.false_ne_true, except_pure_eq_ok,
          except_bind_ok] at hbt
        by_cases hco : isConnected t1 = true
        · rw [if_pos hco] at hbt
          injection hbt with hbt
          rw [← hbt]
          exact hsym1
        · rw [if_neg hco] at hbt
          exact ih t1 hsq1 hsym1 hdl1 T' hbt
      | true =>
        rw [hcy1, if_pos rfl] at hbt
        cases hr : removeEdge t1 e.v e.u e.dir with
        | error err =>
          rw [hr, except_bind_error] at hbt
          cases hbt
        | ok t2 =>
          rw [hr, except_bind_ok] at hbt
          have hr2 : setEdge t1 e.v e.u 0 e.dir = .ok t2 := hr
          have hsq2 : squareMatrix t2 := setEdge_sq hsq1 hr2
          have hsym2 := setEdge_sym hsq1 hsym1
            (hdl e (List.mem_cons_self _ _)) hr2
          by_cases hco : isConnected t2 = true
          · rw [if_pos hco] at hbt
            injection hbt with hbt
            rw [← hbt]
            exact hsym2
          · rw [if_neg hco] at hbt
            exact ih t2 hsq2 hsym2 hdl1 T' hbt

/-- C10: for every well-formed input graph whose matrix is symmetric, the
graph `kruskal` returns also has a symmetric matrix — the coalescing step
merges every enumerated reverse pair into a single undirected entry (and
leaves only directed self-loops otherwise), and each greedy addition or
cycle-undoing removal writes both symmetric cells (or only a diagonal
cell), so `kruskal` never introduces a one-directional edge from an
undirected input. -/
theorem claim_C10_kruskal_symmetric (G : Graph) (hsq : squareMatrix G)
    (hnd : G.vertices.Nodup)
    (hsymb : ∀ i < G.vertices.length, ∀ j < G.vertices.length,
      cellAt G.matrix i j = cellAt G.matrix j i)
    (T : Graph) (hk : kruskal G = .ok T) :
    ∀ i j, cellAt T.matrix i j = cellAt T.matrix j i := by
  have hsymG := sym_of_bounded hsq hsymb
  by_cases hne : G.vertices = []
  · have hm : G.matrix = [] := by
      have h0 := hsq.1
      rw [hne] at h0
      exact List.length_eq_zero.mp h0
    have hE : edgeList G = [] := by
      unfold edgeList
      rw [hm]
      rfl
    rw [kruskal, hne, hE] at hk
    rw [show addVertices emptyGraph [] = .ok emptyGraph from rfl,
      except_bind_ok,
      show stableSortBy (fun a b => decide (a.2.2 < b.2.2))
        ([] : List (Vertex × Vertex × ℤ)) = [] from rfl,
      show coalesce [] [] = [] from rfl,
      show buildTree emptyGraph [] = .ok emptyGraph from rfl] at hk
    injection hk with hk
    rw [← hk]
    have hc : ∀ i j, cellAt emptyGraph.matrix i j = 0 := by
      intro i j
      cases i with
      | zero =>
        show (([] : List ℤ)).getD j 0 = 0
        rw [List.getD_eq_default _ _ (Nat.zero_le j)]
      | succ k =>
        exact cellAt_row_oob (show emptyGraph.matrix.length ≤ k + 1 from
          Nat.succ_le_succ (Nat.zero_le k)) j
    intro i j
    rw [hc i j, hc j i]
  · have hperm := stableSortBy_perm
      (fun a b => decide (a.2.2 < b.2.2)) (edgeList G)
    have hndS : ((stableSortBy (fun a b => decide (a.2.2 < b.2.2))
        (edgeList G)).map (pairOfT G.vertices)).Nodup :=
      ((hperm.map (pairOfT G.vertices)).nodup_iff).mpr
        (edgeList_pair_nodup hsq hnd)
    have hclosed : ∀ t ∈ stableSortBy (fun a b => decide (a.2.2 < b.2.2))
        (edgeList G), t.1 ≠ t.2.1 →
        ((t.2.1, t.1, t.2.2) ∈ stableSortBy
          (fun a b => decide (a.2.2 < b.2.2)) (edgeList G) ∨
          (⟨t.2.1, t.1, t.2.2, true⟩ : DEdge) ∈ ([] : List DEdge)) := by
      intro t ht hne2
      refine Or.inl ?_
      rw [hperm.mem_iff] at ht ⊢
      obtain ⟨i, j, hi, hj, hw, rfl⟩ := (mem_edgeList_iff hsq).mp ht
      refine (mem_edgeList_iff hsq).mpr ⟨j, i, hj, hi, ?_, ?_⟩
      · rw [hsymG j i]
        exact hw
      · rw [hsymG j i]
    have hloop : ∀ e ∈ coalesce (stableSortBy
        (fun a b => decide (a.2.2 < b.2.2)) (edgeList G)) [],
        e.dir = true → e.v = e.u :=
      coalesce_dirLoop _ []
        (by rw [List.flatMap_nil, List.nil_append]; exact hndS)
        (fun e he => absurd he (List.not_mem_nil e)) hclosed
    rw [kruskal, addVertices_empty_ok hne hnd, except_bind_ok] at hk
    exact buildTree_sym _ ⟨G.vertices, zeroM G.vertices.length⟩
      (squareMatrix_zeroM G.vertices)
      (fun i j => by
        rw [cellAt_zeroM G.vertices.length i j,
          cellAt_zeroM G.vertices.length j i])
      hloop T hk

/-- C10 witness: the spec's concrete scenario graph is symmetric, and the
tree `kruskal` returns for it has a symmetric matrix. -/
theorem claim_C10_witness :
    squareMatrix exGraph ∧ exGraph.vertices.Nodup ∧
    (∀ i < exGraph.vertices.length, ∀ j < exGraph.vertices.length,
      cellAt exGraph.matrix i j = cellAt exGraph.matrix j i) ∧
    kruskal exGraph = .ok exMST ∧
    (∀ i j, cellAt exMST.matrix i j = cellAt exMST.matrix j i) :=
  ⟨by decide, by decide, by decide, by decide,
   claim_C10_kruskal_symmetric exGraph (by decide) (by decide) (by decide)
     exMST (by decide)⟩

end GraphLib
